import Mathlib

/-!
Blackjack: hand scoring, participants and dealer policy.

A shallow embedding of `src/blackjack.cpp` (classes `Card`, `Deck`, `Player`,
`Dealer` and the free functions `splitPair` and `playGame`) together with
theorems about it.

Conventions of the embedding

* A `std::vector` is a `List`; `back()` is the last element, `push_back`
  appends at the end, `pop_back` is `dropLast`.
* `int` values that hold totals are unbounded `Int`s: a total is at most
  eleven times the number of cards of a hand, so the 32-bit range is only
  left by hands of more than 195 million cards.
* A hand index is an `int` that the source compares with `hands.size()`
  (a 64-bit `size_t`) and then uses as a subscript; both uses convert it
  modulo `2 ^ 64`, which `toSizeT` spells out.
* Operations whose C++ behaviour is undefined on some input (`back()` of an
  empty vector, a subscript past the end) return `none` there.
* Of the text written to `cout` only the prompts, the announcement and the
  result lines of `playGame` and `splitPair` are kept, as a list of `Event`s.
-/

namespace Blackjack

/-! ## Cards -/

/-- The enumeration `CardValue { TWO = 2, ..., ACE }`. -/
inductive CardValue
  | TWO | THREE | FOUR | FIVE | SIX | SEVEN | EIGHT | NINE | TEN
  | JACK | QUEEN | KING | ACE
  deriving DecidableEq

/-- The integer an enumerator converts to (`TWO = 2`, then consecutive). -/
def CardValue.toInt : CardValue → Int
  | .TWO => 2 | .THREE => 3 | .FOUR => 4 | .FIVE => 5 | .SIX => 6
  | .SEVEN => 7 | .EIGHT => 8 | .NINE => 9 | .TEN => 10
  | .JACK => 11 | .QUEEN => 12 | .KING => 13 | .ACE => 14

/-- The class `Card`: a rank, a suit character and the face-up flag. -/
structure Card where
  value : CardValue
  suit : Char
  revealed : Bool
  deriving DecidableEq

/-- The method `Card::getPoints(int currentTotal = 0)`. -/
def Card.getPoints (card : Card) (currentTotal : Int := 0) : Int :=
  if !card.revealed then 0
  else
    match card.value with
    | .JACK | .QUEEN | .KING => 10
    | .ACE => if currentTotal + 11 ≤ 21 then 11 else 1
    | v => v.toInt

/-! ## The shoe -/

/-- The class `Deck`: `cards.back()` is the last element of the list. -/
structure Deck where
  cards : List Card
  deriving DecidableEq

/-- The method `Deck::drawCard(bool reveal = true)`: `cards.back()`, then
`cards.pop_back()`, then the copy's flag is set.  The source has no emptiness
test, so on an empty shoe the behaviour is undefined (`none`). -/
def Deck.drawCard (deck : Deck) (reveal : Bool := true) : Option (Card × Deck) :=
  match deck.cards.getLast? with
  | none => none
  | some card => some ({ card with revealed := reveal }, { cards := deck.cards.dropLast })

/-! ## Participants -/

/-- The class `Player`: its only data member is `hands`. -/
structure Player where
  hands : List (List Card)
  deriving DecidableEq

/-- Conversion of an `int` to the 64-bit unsigned `size_t`. -/
def toSizeT (i : Int) : Nat := (i % 18446744073709551616).toNat

/-- The constructor `Player::Player()`: one empty hand. -/
def Player.new : Player := { hands := [[]] }

/-- Body of the range-for loop of `Player::getPoints`, on the pair
`(total, aces)`. -/
def scoreStep (acc : Int × Nat) (card : Card) : Int × Nat :=
  if card.revealed then
    if card.value = CardValue.ACE then (acc.1 + 11, acc.2 + 1)
    else (acc.1 + card.getPoints acc.1, acc.2)
  else acc

/-- The loop `while (total > 21 && aces > 0) { total -= 10; aces--; }` of
`Player::getPoints`, returning the final `total`. -/
def demote : Int → Nat → Int
  | total, 0 => total
  | total, aces + 1 => if total > 21 then demote (total - 10) aces else total

/-- The part of `Player::getPoints` after the index test, for the hand it
selected. -/
def handTotal (hand : List Card) : Int :=
  let acc := hand.foldl scoreStep (0, 0)
  demote acc.1 acc.2

/-- The method `Player::getPoints(int handIndex = 0)`. -/
def Player.getPoints (p : Player) (handIndex : Int := 0) : Int :=
  if h : toSizeT handIndex < p.hands.length then handTotal (p.hands.get ⟨toSizeT handIndex, h⟩)
  else 0

/-- The method `Player::drawCard(Deck&, int handIndex = 0, bool reveal = true)`;
the result is the participant and the shoe afterwards. -/
def Player.drawCard (p : Player) (deck : Deck) (handIndex : Int := 0) (reveal : Bool := true) :
    Option (Player × Deck) :=
  if h : toSizeT handIndex < p.hands.length then
    let hand := p.hands.get ⟨toSizeT handIndex, h⟩
    if hand.length ≥ 5 then some (p, deck)
    else
      match deck.drawCard reveal with
      | none => none
      | some (card, deck1) =>
        some ({ hands := p.hands.set (toSizeT handIndex) (hand ++ [card]) }, deck1)
  else some (p, deck)

/-- The method `Player::isBlackjack(int handIndex = 0)`. -/
def Player.isBlackjack (p : Player) (handIndex : Int := 0) : Bool :=
  if h : toSizeT handIndex < p.hands.length then
    decide ((p.hands.get ⟨toSizeT handIndex, h⟩).length = 2) && decide (p.getPoints handIndex = 21)
  else false

/-- The method `Player::canSplit(int handIndex = 0)`. -/
def Player.canSplit (p : Player) (handIndex : Int := 0) : Bool :=
  if h : toSizeT handIndex < p.hands.length then
    match p.hands.get ⟨toSizeT handIndex, h⟩ with
    | [c0, c1] => decide (c0.getPoints = c1.getPoints)
    | _ => false
  else false

/-- The method `Player::splitHand(Deck&, int handIndex)`. -/
def Player.splitHand (p : Player) (deck : Deck) (handIndex : Int) : Option (Player × Deck) :=
  if h : toSizeT handIndex < p.hands.length then
    if !p.canSplit handIndex then some (p, deck)
    else
      let firstHand := p.hands.get ⟨toSizeT handIndex, h⟩
      match firstHand.getLast? with
      | none => none
      | some back =>
        match deck.drawCard with
        | none => none
        | some (card1, deck1) =>
          match deck1.drawCard with
          | none => none
          | some (card2, deck2) =>
            some ({ hands := p.hands.set (toSizeT handIndex) (firstHand.dropLast ++ [card1])
                              ++ [[back] ++ [card2]] }, deck2)
  else some (p, deck)

/-! ## The dealer

`class Dealer : public Player` adds no data member, so a dealer is a `Player`
value; the functions below are the members `Dealer` adds. -/

/-- The constructor `Dealer::Dealer()`: two face-down placeholder cards. -/
def Dealer.new : Player :=
  { hands := [[⟨CardValue.TWO, 'H', false⟩, ⟨CardValue.TWO, 'H', false⟩]] }

/-- The method `Dealer::drawInitialCards(Deck&)`: the two assignments to
`hands[0][0]` and `hands[0][1]`; a missing slot is undefined behaviour. -/
def Dealer.drawInitialCards (dealer : Player) (deck : Deck) : Option (Player × Deck) :=
  match dealer.hands with
  | (c0 :: c1 :: more) :: rest =>
    match deck.drawCard true with
    | none => none
    | some (card1, deck1) =>
      match deck1.drawCard false with
      | none => none
      | some (card2, deck2) =>
        some ({ hands := (((c0 :: c1 :: more).set 0 card1).set 1 card2) :: rest }, deck2)
  | _ => none

/-- The statement `hands[0][1].revealed = true;` that opens `Dealer::play`. -/
def Dealer.revealSecond (dealer : Player) : Option Player :=
  match dealer.hands with
  | (c0 :: c1 :: more) :: rest =>
    some { hands := (c0 :: { c1 with revealed := true } :: more) :: rest }
  | _ => none

/-- The method `Dealer::revealCards()`. -/
def Dealer.revealCards (dealer : Player) : Option Player :=
  match dealer.hands with
  | hand :: rest => some { hands := hand.map (fun card => { card with revealed := true }) :: rest }
  | [] => none

/-- What one evaluation of a `while` loop does: leave the loop, run the body
once and come back to the test in a new state, or hit undefined behaviour. -/
inductive LoopStep (σ : Type)
  | exit
  | again (next : σ)
  | undefined
  deriving DecidableEq

/-- What running a loop with a bounded number of iterations gives. -/
inductive Run (σ : Type)
  | done (final : σ)
  | undefined
  | unfinished
  deriving DecidableEq

/-- One evaluation of `while (getPoints(0) < 17) { drawCard(deck, 0); }` in
`Dealer::play`. -/
def Dealer.playStep (s : Player × Deck) : LoopStep (Player × Deck) :=
  if s.1.getPoints 0 < 17 then
    match s.1.drawCard s.2 0 with
    | none => LoopStep.undefined
    | some next => LoopStep.again next
  else LoopStep.exit

/-- The `while` loop of `Dealer::play`, cut off after `fuel` evaluations of
its test. -/
def Dealer.playLoop : Nat → Player × Deck → Run (Player × Deck)
  | 0, _ => Run.unfinished
  | fuel + 1, s =>
    match Dealer.playStep s with
    | LoopStep.exit => Run.done s
    | LoopStep.undefined => Run.undefined
    | LoopStep.again next => Dealer.playLoop fuel next

/-- The method `Dealer::play(Deck&)`, its loop cut off after `fuel`
evaluations of the test. -/
def Dealer.play (fuel : Nat) (dealer : Player) (deck : Deck) : Run (Player × Deck) :=
  match Dealer.revealSecond dealer with
  | none => Run.undefined
  | some dealer1 => Dealer.playLoop fuel (dealer1, deck)

/-! ## The split offer -/

/-- The prompt loop `while (true) { cin >> choice; ... }` of `splitPair`, fed
with the characters `cin` delivers.  The loop only leaves on `'y'` or `'n'`.
When the input runs out `choice` is still uninitialised or holds a character
that is neither, and stays so: there is no result. -/
def splitPairPrompt (player : Player) (i : Int) (deck : Deck) (resplitPossible : Bool) :
    List Char → Option (Player × Deck × Bool × List Char)
  | [] => none
  | choice :: rest =>
    if choice = 'y' then
      match player.splitHand deck i with
      | none => none
      | some (player1, deck1) => some (player1, deck1, true, rest)
    else if choice = 'n' then some (player, deck, resplitPossible, rest)
    else splitPairPrompt player i deck resplitPossible rest

/-- The function `splitPair(Player&, int i, Deck&, bool& resplitPossible)`; the
result is the player, the shoe, the flag and the unread input afterwards. -/
def splitPair (player : Player) (i : Int) (deck : Deck) (resplitPossible : Bool)
    (input : List Char) : Option (Player × Deck × Bool × List Char) :=
  if player.canSplit i && decide (player.hands.length < 4) then
    splitPairPrompt player i deck resplitPossible input
  else some (player, deck, resplitPossible, input)

/-! ## Quantities used to state the scoring theorems -/

/-- Spec side: the value of a rank that is not an Ace: 10 for the ten and the
face cards, the face value for 2 to 9. -/
def rankValue : CardValue → Int
  | .TWO => 2 | .THREE => 3 | .FOUR => 4 | .FIVE => 5 | .SIX => 6
  | .SEVEN => 7 | .EIGHT => 8 | .NINE => 9
  | .TEN => 10 | .JACK => 10 | .QUEEN => 10 | .KING => 10
  | .ACE => 0

/-- Sum of the values of the revealed cards of a hand that are not Aces. -/
def baseSum : List Card → Int
  | [] => 0
  | card :: rest =>
    if card.revealed && decide (card.value ≠ CardValue.ACE) then rankValue card.value + baseSum rest
    else baseSum rest

/-- Number of revealed Aces of a hand. -/
def aceCount : List Card → Nat
  | [] => 0
  | card :: rest =>
    if card.revealed && decide (card.value = CardValue.ACE) then aceCount rest + 1
    else aceCount rest

/-- Spec side: every way of valuing a hand.  A face-down card counts nothing,
a revealed card that is not an Ace counts its `rankValue`, and each revealed
Ace is valued 1 or 11.  An entry is the total of one valuation together with
the number of Aces that valuation counts as 11. -/
def aceValuations : List Card → List (Int × Nat)
  | [] => [(0, 0)]
  | card :: rest =>
    if card.revealed then
      if card.value = CardValue.ACE then
        (aceValuations rest).map (fun v => (v.1 + 1, v.2))
          ++ (aceValuations rest).map (fun v => (v.1 + 11, v.2 + 1))
      else (aceValuations rest).map (fun v => (v.1 + rankValue card.value, v.2))
    else aceValuations rest

/-- Spec side: the total of a hand with every revealed Ace valued 1. -/
def hardTotal (hand : List Card) : Int := baseSum hand + aceCount hand

/-- A face-up card of hearts. -/
def faceUp (v : CardValue) : Card := ⟨v, 'H', true⟩

/-- A face-down card of spades. -/
def faceDown (v : CardValue) : Card := ⟨v, 'S', false⟩

/-- A participant holding Ace, 9, a face-down King and a second Ace. -/
def softHandPlayer : Player :=
  { hands := [[faceUp .ACE, faceUp .NINE, faceDown .KING, faceUp .ACE]] }

/-- The hand of `softHandPlayer` in another order. -/
def softHandShuffled : Player :=
  { hands := [[faceUp .NINE, faceUp .ACE, faceUp .ACE, faceDown .KING]] }

/-- A participant whose only hand is two face-down cards. -/
def hiddenPlayer : Player := { hands := [[faceDown .KING, faceDown .ACE]] }

/-- Spec side: the scoring value of a card whatever its visibility: 10 for
the ten and the face cards, the face value for 2 to 9, and a value of its own
for the Ace. -/
def scoringValue (card : Card) : Int :=
  if card.value = CardValue.ACE then 11 else rankValue card.value

/-- A participant holding a three-card 21. -/
def threeSevens : Player := { hands := [[faceUp .SEVEN, faceUp .SEVEN, faceUp .SEVEN]] }

/-- A participant holding a face-up Jack and a face-up Queen. -/
def jackQueen : Player := { hands := [[faceUp .JACK, faceUp .QUEEN]] }

/-- A participant holding four pairs of eights: the hand-count cap is reached. -/
def fourPairs : Player :=
  { hands := [[faceUp .EIGHT, faceUp .EIGHT], [faceUp .EIGHT, faceUp .EIGHT],
      [faceUp .EIGHT, faceUp .EIGHT], [faceUp .EIGHT, faceUp .EIGHT]] }

/-- A shoe of three cards; the 5 is drawn first. -/
def smallShoe : Deck := { cards := [faceUp .KING, faceUp .NINE, faceUp .FIVE] }

/-- A participant whose first hand is full and whose second hand is not. -/
def fullHandPlayer : Player :=
  { hands := [[faceUp .TWO, faceUp .TWO, faceUp .THREE, faceUp .TWO, faceUp .TWO],
      [faceUp .TEN]] }

/-- A dealer in the Dealt state: a face-up 2 and a face-down 3. -/
def lowDealer : Player := { hands := [[faceUp .TWO, faceDown .THREE]] }

/-- The dealer `lowDealer` in the Revealed state. -/
def lowDealerRevealed : Player := { hands := [[faceUp .TWO, ⟨.THREE, 'S', true⟩]] }

/-- A shoe whose draws are 2, 3, 2, then a King and a Queen. -/
def lowShoe : Deck :=
  { cards := [faceUp .QUEEN, faceUp .KING, faceUp .TWO, faceUp .THREE, faceUp .TWO] }

/-- The dealer `lowDealer` after its hidden card is revealed and three cards
are drawn from `lowShoe`: five cards that total 12. -/
def stuckDealer : Player :=
  { hands := [[faceUp .TWO, ⟨.THREE, 'S', true⟩, faceUp .TWO, faceUp .THREE, faceUp .TWO]] }

/-- What is left of `lowShoe` after three draws. -/
def stuckShoe : Deck := { cards := [faceUp .QUEEN, faceUp .KING] }

/-- A dealer in the Revealed state with a soft 17. -/
def softSeventeen : Player := { hands := [[faceUp .ACE, faceUp .SIX]] }

/-! ## The round

`playGame` and the loops it is made of.  The characters `cin >> choice`
delivers are a `List Char` (white space is skipped, so the list holds none).
When they have run out a read fails and leaves `choice` as it was: the prompt
loop of `splitPair`, whose `choice` is a fresh variable in every call, then has
no result, and the loop of the player's turn goes on with the old `choice`.  Of
the text written to `cout` the model keeps the prompts, the announcement and
the result lines as `Event`s; the pictures of the hands and the two
diagnostics of `Player::drawCard` are left out. -/

/-- A line written to `cout`; `hand` is the index `i` of the hand (the text
shows `i + 1`). -/
inductive Event
  | splitPrompt (hand : Nat)
  | hitPrompt (hand : Nat)
  | blackjack
  | busted (hand : Nat)
  | wins (hand : Nat)
  | loses (hand : Nat)
  | ties (hand : Nat)
  deriving DecidableEq

/-- The part of the state of `playGame` that the player's phases change. -/
structure Table where
  player : Player
  deck : Deck
  input : List Char
  log : List Event
  deriving DecidableEq

/-- A `while` loop given by one evaluation `step`, cut off after `fuel`
evaluations of its test. -/
def runLoop {σ : Type} (step : σ → LoopStep σ) : Nat → σ → Run σ
  | 0, _ => Run.unfinished
  | fuel + 1, s =>
    match step s with
    | LoopStep.exit => Run.done s
    | LoopStep.undefined => Run.undefined
    | LoopStep.again next => runLoop step fuel next

/-- One evaluation of the inner loop of the split phase,
`while (i < handsize) { splitPair(player, i, deck, resplitPossible); ++i;
handsize = player.hands.size(); }`, on `(i, resplitPossible, table)`; at every
test `handsize` is `player.hands.size()`.  `splitPair` writes its prompt once
before each character it reads. -/
def splitScanStep (s : Nat × Bool × Table) : LoopStep (Nat × Bool × Table) :=
  if s.1 < s.2.2.player.hands.length then
    match splitPair s.2.2.player s.1 s.2.2.deck s.2.1 s.2.2.input with
    | none => LoopStep.undefined
    | some (player1, deck1, flag1, rest) =>
      LoopStep.again (s.1 + 1, flag1,
        { player := player1, deck := deck1, input := rest,
          log := s.2.2.log
            ++ List.replicate (s.2.2.input.length - rest.length) (Event.splitPrompt s.1) })
  else LoopStep.exit

/-- One full scan of the split phase: `resplitPossible = false; int i = 0;`
and the inner loop; the result is the flag and the table after the scan. -/
def splitScan (fuel : Nat) (t : Table) : Run (Bool × Table) :=
  match runLoop splitScanStep fuel (0, false, t) with
  | Run.done s => Run.done (s.2.1, s.2.2)
  | Run.undefined => Run.undefined
  | Run.unfinished => Run.unfinished

/-- The outer loop `while (resplitPossible) { ... }` of the split phase, cut
off after the given number of evaluations of its test; every scan may use
`fuel` evaluations of the inner test. -/
def splitPhaseLoop (fuel : Nat) : Nat → Bool → Table → Run Table
  | 0, _, _ => Run.unfinished
  | n + 1, resplitPossible, t =>
    if resplitPossible then
      match splitScan fuel t with
      | Run.done (flag1, t1) => splitPhaseLoop fuel n flag1 t1
      | Run.undefined => Run.undefined
      | Run.unfinished => Run.unfinished
    else Run.done t

/-- The split phase of `playGame`: `bool resplitPossible = true;` and the
outer loop. -/
def splitPhase (fuel : Nat) (t : Table) : Run Table :=
  splitPhaseLoop fuel fuel true t

/-- The loop of the player's turn for hand `i` once `cin` has failed and
`choice` holds `'y'`: every further `cin >> choice` fails too and leaves
`choice` as it is, so each iteration prompts and draws again.  The loop ends
when the hand is bust.  A draw that `Player::drawCard` rejects changes nothing,
so from then on the iterations repeat and the loop never ends: no result.  A
draw that is not rejected adds a card to hand `i`, which happens at most five
times; the first argument counts the iterations and 6 are always enough. -/
def hitAtEnd (i : Nat) : Nat → Player → Deck → List Event → Option Table
  | 0, _, _, _ => none
  | k + 1, player, deck, log =>
    match player.drawCard deck i with
    | none => none
    | some (player1, deck1) =>
      if player1.getPoints i > 21 then
        some { player := player1, deck := deck1, input := [],
               log := log ++ [Event.hitPrompt i, Event.busted i] }
      else if player1 = player then none
      else hitAtEnd i k player1 deck1 (log ++ [Event.hitPrompt i])

/-- The loop `while (true) { cout << ...; cin >> choice; ... }` of the
player's turn for hand `i`.  `choice` is the value the variable `choice` of
`playGame` holds when the loop is entered, `none` while it is uninitialised;
the result carries the value it holds when the loop is left.  When the input
has run out `cin >> choice` fails and leaves `choice` unchanged: on `'n'` the
loop is left, on `'y'` it goes on as `hitAtEnd`, on any other character it
never ends, and an uninitialised `choice` is read with undefined behaviour. -/
def hitLoop (i : Nat) : List Char → Option Char → Player → Deck → List Event →
    Option (Table × Char)
  | [], none, _, _, _ => none
  | [], some choice, player, deck, log =>
    if choice = 'y' then
      match hitAtEnd i 6 player deck log with
      | none => none
      | some t => some (t, 'y')
    else if choice = 'n' then
      some ({ player := player, deck := deck, input := [],
              log := log ++ [Event.hitPrompt i] }, 'n')
    else none
  | choice :: rest, _, player, deck, log =>
    if choice = 'y' then
      match player.drawCard deck i with
      | none => none
      | some (player1, deck1) =>
        if player1.getPoints i > 21 then
          some ({ player := player1, deck := deck1, input := rest,
                  log := log ++ [Event.hitPrompt i, Event.busted i] }, 'y')
        else hitLoop i rest (some 'y') player1 deck1 (log ++ [Event.hitPrompt i])
    else if choice = 'n' then
      some ({ player := player, deck := deck, input := rest,
              log := log ++ [Event.hitPrompt i] }, 'n')
    else hitLoop i rest (some choice) player deck (log ++ [Event.hitPrompt i])

/-- The loop `for (int i = 0; i < player.hands.size(); ++i)` of the player's
turn, from index `i` on; `count` bounds the number of hands still to visit and
`choice` is the value of the variable `choice` so far. -/
def hitHands : Nat → Nat → Option Char → Table → Option Table
  | 0, _, _, t => some t
  | count + 1, i, choice, t =>
    if i < t.player.hands.length then
      match hitLoop i t.input choice t.player t.deck t.log with
      | none => none
      | some (t1, choice1) => hitHands count (i + 1) (some choice1) t1
    else some t

/-- The player's turn in `playGame`: `char choice;` and
`if (player.isBlackjack()) ... else ...`. -/
def playerTurn (t : Table) : Option Table :=
  if t.player.isBlackjack then some { t with log := t.log ++ [Event.blackjack] }
  else hitHands t.player.hands.length 0 none t

/-- The `if` chain of the settlement loop for hand `i`. -/
def settleHand (i : Nat) (playerPoints dealerPoints : Int) : Event :=
  if playerPoints > 21 then Event.busted i
  else if dealerPoints > 21 ∨ playerPoints > dealerPoints then Event.wins i
  else if playerPoints < dealerPoints then Event.loses i
  else Event.ties i

/-- The settlement loop that ends `playGame`. -/
def settlement (player dealer : Player) : List Event :=
  (List.range player.hands.length).map
    (fun i => settleHand i (player.getPoints i) (dealer.getPoints 0))

/-- What `playGame` leaves behind when it returns. -/
structure Round where
  player : Player
  dealer : Player
  deck : Deck
  input : List Char
  log : List Event
  deriving DecidableEq

/-- The function `playGame()`, started with the shoe `deck` that the `Deck`
constructor built and with the characters `input` on `cin`; every loop that
`fuel` bounds gets `fuel` evaluations.  `Run.undefined` stands for every way
of having no result: an undefined draw or subscript, and a prompt loop that
has none. -/
def playGame (fuel : Nat) (deck : Deck) (input : List Char) : Run Round :=
  match Dealer.drawInitialCards Dealer.new deck with
  | none => Run.undefined
  | some (dealer, deck1) =>
    match Player.new.drawCard deck1 with
    | none => Run.undefined
    | some (player1, deck2) =>
      match player1.drawCard deck2 with
      | none => Run.undefined
      | some (player2, deck3) =>
        match splitPhase fuel { player := player2, deck := deck3, input := input, log := [] } with
        | Run.undefined => Run.undefined
        | Run.unfinished => Run.unfinished
        | Run.done t =>
          match playerTurn t with
          | none => Run.undefined
          | some t1 =>
            match Dealer.play fuel dealer t1.deck with
            | Run.undefined => Run.undefined
            | Run.unfinished => Run.unfinished
            | Run.done (dealer1, deck4) =>
              match Dealer.revealCards dealer1 with
              | none => Run.undefined
              | some dealer2 =>
                Run.done { player := t1.player, dealer := dealer2, deck := deck4,
                           input := t1.input, log := t1.log ++ settlement t1.player dealer2 }

/-! ## Building the shoe

The constructor `Deck::Deck()` calls `rand()` once for every card it pushes
and leaves the order to `random_shuffle`.  `rand n` is the value the call
number `n` returns; what the shuffle does is kept as a permutation. -/

/-- The method `Deck::randomSuit()`, for the value `r` its call of `rand()`
returned: `suits[r % 4]`. -/
def Deck.randomSuit (r : Nat) : Char :=
  match r % 4 with
  | 0 => 'H'
  | 1 => 'D'
  | 2 => 'C'
  | _ => 'S'

/-- The values `TWO`, ..., `ACE` the loop variable `j` runs through. -/
def allRanks : List CardValue :=
  [.TWO, .THREE, .FOUR, .FIVE, .SIX, .SEVEN, .EIGHT, .NINE, .TEN, .JACK, .QUEEN, .KING, .ACE]

/-- The statement `cards.push_back(Card(static_cast<CardValue>(j), randomSuit()));`:
as many calls of `rand()` came before it as there are cards. -/
def Deck.pushCard (rand : Nat → Nat) (cards : List Card) (j : CardValue) : List Card :=
  cards ++ [⟨j, Deck.randomSuit (rand cards.length), true⟩]

/-- The three nested loops of the constructor `Deck::Deck()`. -/
def Deck.fill (rand : Nat → Nat) : List Card :=
  (List.range 6).foldl
    (fun cards _ =>
      allRanks.foldl
        (fun cards j => (List.range 4).foldl (fun cards _ => Deck.pushCard rand cards j) cards)
        cards)
    []

/-- The shoe `deck` is one that the constructor `Deck::Deck()` can build with
the random source `rand`: the filled vector in the order `shuffle()` gave it. -/
def Deck.constructed (rand : Nat → Nat) (deck : Deck) : Prop :=
  deck.cards.Perm (Deck.fill rand)

/-- The ranks of six decks in the order the constructor pushes them: six
times every rank four times. -/
def rankPattern : List CardValue :=
  (List.range 6).flatMap (fun _ => allRanks.flatMap (fun j => [j, j, j, j]))

/-- A random source that always returns 0. -/
def zeroRand : Nat → Nat := fun _ => 0

/-- A card the constructor can push: face-up, with one of the four suit
letters. -/
def Deck.freshCard (card : Card) : Prop :=
  card.revealed = true ∧ card.suit ∈ ['H', 'D', 'C', 'S']

/-- The invariant of the hands of a participant: no hand has more than 5
cards. -/
def handsBounded (p : Player) : Prop := ∀ hand ∈ p.hands, hand.length ≤ 5

/-- A shoe without cards. -/
def emptyShoe : Deck := { cards := [] }

/-- A shoe whose draws yield 10 and 6 to the dealer, two Aces to the player,
then a King, a 5 and a 9. -/
def splitAcesShoe : Deck :=
  { cards := [faceUp .NINE, faceUp .FIVE, faceUp .KING, ⟨.ACE, 'H', true⟩, ⟨.ACE, 'S', true⟩,
      ⟨.SIX, 'D', true⟩, ⟨.TEN, 'C', true⟩] }

/-- A shoe whose draws yield 10 and 7 to the dealer and Ace, King to the
player. -/
def naturalShoe : Deck :=
  { cards := [faceUp .TWO, ⟨.KING, 'D', true⟩, ⟨.ACE, 'C', true⟩, ⟨.SEVEN, 'D', true⟩,
      ⟨.TEN, 'C', true⟩] }

/-- A shoe whose draws yield Ace and Queen to the dealer and Ace, King to the
player. -/
def twoNaturalsShoe : Deck :=
  { cards := [faceUp .TWO, ⟨.KING, 'D', true⟩, ⟨.ACE, 'C', true⟩, ⟨.QUEEN, 'D', true⟩,
      ⟨.ACE, 'S', true⟩] }

/-- The input holds nothing but the decisions `'y'` and `'n'`. -/
def decisionsOnly (input : List Char) : Prop := ∀ c ∈ input, c = 'y' ∨ c = 'n'

/-- A table at the start of the split phase: a pair of eights, a shoe of
eights and sixteen times `'y'`. -/
def eagerTable : Table :=
  { player := { hands := [[faceUp .EIGHT, faceUp .EIGHT]] }
    deck := { cards := List.replicate 6 (faceUp .EIGHT) }
    input := List.replicate 16 'y'
    log := [] }

/-- The number of cards hand `i` of a participant can still take: 5 minus its
size, and 0 when there is no such hand. -/
def roomLeft (p : Player) (i : Nat) : Nat :=
  match p.hands[toSizeT (i : Int)]? with
  | some hand => 5 - hand.length
  | none => 0

/-- The number of cards a participant holds in all hands together. -/
def cardsHeld (p : Player) : Nat := (p.hands.map List.length).sum

/-- The state of a participant and the shoe during a round in which `total`
cards are shared between the shoe and the participant's hands: no hand has
more than 5 cards and there are at most 4 hands. -/
def roundInv (total : Nat) (p : Player) (deck : Deck) : Prop :=
  deck.cards.length + cardsHeld p = total ∧ handsBounded p ∧ p.hands.length ≤ 4
/-- Spec side: what a draw gives according to the spec, a card together with
the shoe without it, or the failure EmptyShoe. -/
inductive DrawResult
  | drawn (card : Card) (shoe : Deck)
  | emptyShoe
  deriving DecidableEq

/-- Spec side: `draw(faceUp)`, which "removes and returns the last card of the
shoe; fails with EmptyShoe if the shoe has no cards". -/
def Deck.drawChecked (deck : Deck) (reveal : Bool) : DrawResult :=
  match deck.cards.getLast? with
  | none => DrawResult.emptyShoe
  | some card => DrawResult.drawn { card with revealed := reveal } (Deck.mk deck.cards.dropLast)

/-! # Theorems -/

/-! ## Hand scoring: auxiliary facts -/

theorem baseSum_nonneg (hand : List Card) : 0 ≤ baseSum hand := by
  induction hand with
  | nil => simp [baseSum]
  | cons card rest ih =>
    unfold baseSum
    split
    · have : 0 ≤ rankValue card.value := by cases card.value <;> simp [rankValue]
      omega
    · exact ih

theorem scoreStep_eq (acc : Int × Nat) (card : Card) :
    scoreStep acc card = (acc.1 + baseSum [card] + 11 * aceCount [card], acc.2 + aceCount [card]) := by
  obtain ⟨v, s, r⟩ := card
  cases r <;> cases v <;> simp [scoreStep, baseSum, aceCount, Card.getPoints, rankValue, CardValue.toInt]

theorem foldl_scoreStep (hand : List Card) (acc : Int × Nat) :
    hand.foldl scoreStep acc
      = (acc.1 + baseSum hand + 11 * aceCount hand, acc.2 + aceCount hand) := by
  induction hand generalizing acc with
  | nil => simp [baseSum, aceCount]
  | cons card rest ih =>
    rw [List.foldl_cons, ih, scoreStep_eq]
    have hb : baseSum (card :: rest) = baseSum [card] + baseSum rest := by
      simp only [baseSum]; split <;> simp
    have ha : aceCount (card :: rest) = aceCount [card] + aceCount rest := by
      simp only [aceCount]; split <;> simp [Nat.add_comm]
    rw [hb, ha]
    ext
    · simp only; push_cast; ring
    · simp only; omega

theorem handTotal_eq (hand : List Card) :
    handTotal hand = demote (baseSum hand + 11 * aceCount hand) (aceCount hand) := by
  simp [handTotal, foldl_scoreStep]

theorem baseSum_perm {h h' : List Card} (hp : h.Perm h') : baseSum h = baseSum h' := by
  induction hp with
  | nil => rfl
  | cons c _ ih => simp only [baseSum, ih]
  | swap a b l => simp only [baseSum]; split <;> split <;> ring
  | trans _ _ ih1 ih2 => exact ih1.trans ih2

theorem aceCount_perm {h h' : List Card} (hp : h.Perm h') : aceCount h = aceCount h' := by
  induction hp with
  | nil => rfl
  | cons c _ ih => simp only [aceCount, ih]
  | swap a b l => simp only [aceCount]; split <;> split <;> rfl
  | trans _ _ ih1 ih2 => exact ih1.trans ih2

theorem handTotal_perm {h h' : List Card} (hp : h.Perm h') : handTotal h = handTotal h' := by
  rw [handTotal_eq, handTotal_eq, baseSum_perm hp, aceCount_perm hp]

/-- What the demotion loop computes: it removes 10 some `j` times, never more
often than there are Aces, each removal happened above 21, and it only ends
above 21 when every Ace has been demoted. -/
theorem demote_spec (aces : Nat) (total : Int) :
    ∃ j : Nat, j ≤ aces ∧ demote total aces = total - 10 * j ∧
      (∀ j' : Nat, j' < j → total - 10 * j' > 21) ∧ (demote total aces > 21 → j = aces) := by
  induction aces generalizing total with
  | zero => exact ⟨0, by simp [demote]⟩
  | succ n ih =>
    by_cases ht : total > 21
    · obtain ⟨j, hj, he, hall, hlast⟩ := ih (total - 10)
      refine ⟨j + 1, by omega, ?_, ?_, ?_⟩
      · simp only [demote, ht, if_true, he]; push_cast; ring
      · intro j' hj'
        cases j' with
        | zero => simpa using ht
        | succ k => have := hall k (by omega); push_cast; omega
      · intro hgt
        simp only [demote, ht, if_true] at hgt
        have := hlast hgt; omega
    · refine ⟨0, by omega, by simp [demote, ht], by intro j' hj'; omega, ?_⟩
      intro hgt; simp [demote, ht] at hgt

theorem Player.getPoints_eq (p : Player) (i : Int) :
    p.getPoints i = ((p.hands[toSizeT i]?).map handTotal).getD 0 := by
  unfold Player.getPoints
  split
  · next h => simp [List.getElem?_eq_getElem h]
  · next h => simp [List.getElem?_eq_none (Nat.le_of_not_lt h)]

theorem mem_aceValuations (hand : List Card) (v : Int × Nat) :
    v ∈ aceValuations hand ↔
      ∃ j : Nat, j ≤ aceCount hand ∧ v = (baseSum hand + aceCount hand + 10 * j, j) := by
  induction hand generalizing v with
  | nil => simp [aceValuations, baseSum, aceCount]
  | cons card rest ih =>
    obtain ⟨val, s, r⟩ := card
    cases r
    · simpa [aceValuations, baseSum, aceCount] using ih v
    · by_cases hv : val = CardValue.ACE
      · subst hv
        simp only [aceValuations, baseSum, aceCount, if_true, List.mem_append, List.mem_map]
        constructor
        · rintro (⟨w, hw, rfl⟩ | ⟨w, hw, rfl⟩)
          · obtain ⟨j, hj, rfl⟩ := (ih w).1 hw
            refine ⟨j, by simp; omega, ?_⟩
            ext <;> simp; ring
          · obtain ⟨j, hj, rfl⟩ := (ih w).1 hw
            refine ⟨j + 1, by simp; omega, ?_⟩
            ext <;> simp; ring
        · rintro ⟨j, hj, rfl⟩
          simp at hj
          by_cases hjk : j ≤ aceCount rest
          · left
            refine ⟨_, (ih _).2 ⟨j, hjk, rfl⟩, ?_⟩
            ext <;> simp; ring
          · right
            have hj' : j = aceCount rest + 1 := by omega
            refine ⟨_, (ih _).2 ⟨aceCount rest, le_refl _, rfl⟩, ?_⟩
            ext <;> simp [hj']; ring
      · simp only [aceValuations, baseSum, aceCount, hv, if_true, if_false, List.mem_map]
        simp only [ne_eq, hv, not_false_eq_true, decide_True, decide_False, Bool.and_true,
          Bool.and_false, if_true, Bool.false_eq_true, if_false]
        constructor
        · rintro ⟨w, hw, rfl⟩
          obtain ⟨j, hj, rfl⟩ := (ih w).1 hw
          refine ⟨j, hj, ?_⟩
          ext <;> simp; ring
        · rintro ⟨j, hj, rfl⟩
          refine ⟨_, (ih _).2 ⟨j, hj, rfl⟩, ?_⟩
          ext <;> simp; ring

theorem foldl_scoreStep_filter (hand : List Card) (acc : Int × Nat) :
    (hand.filter (fun card => card.revealed)).foldl scoreStep acc = hand.foldl scoreStep acc := by
  induction hand generalizing acc with
  | nil => rfl
  | cons card rest ih =>
    by_cases hr : card.revealed = true
    · simp [List.filter_cons, hr, ih]
    · simp [List.filter_cons, hr, ih, scoreStep]

theorem handTotal_filter (hand : List Card) :
    handTotal (hand.filter (fun card => card.revealed)) = handTotal hand := by
  simp [handTotal, foldl_scoreStep_filter]

/-! ## Hand scoring: the claims -/

/-- C1: the total `Player::getPoints` returns does not depend on the order of
the cards: if every hand of `q` is a permutation of the hand of `p` at the same
position, both participants get the same total at every hand index. -/
theorem getPoints_perm_invariant (p q : Player) (handIndex : Int)
    (hperm : List.Forall₂ List.Perm p.hands q.hands) :
    q.getPoints handIndex = p.getPoints handIndex := by
  have hlen := hperm.length_eq
  unfold Player.getPoints
  by_cases h : toSizeT handIndex < p.hands.length
  · have h' : toSizeT handIndex < q.hands.length := hlen ▸ h
    rw [dif_pos h, dif_pos h']
    exact (handTotal_perm (hperm.get h h')).symm
  · have h' : ¬ toSizeT handIndex < q.hands.length := hlen ▸ h
    rw [dif_neg h, dif_neg h']

theorem getPoints_perm_invariant_witness :
    List.Forall₂ List.Perm softHandPlayer.hands softHandShuffled.hands ∧
      softHandShuffled.getPoints 0 = softHandPlayer.getPoints 0 :=
  ⟨List.Forall₂.cons (by decide) List.Forall₂.nil,
    getPoints_perm_invariant softHandPlayer softHandShuffled 0
      (List.Forall₂.cons (by decide) List.Forall₂.nil)⟩

/-- C2: `Player::getPoints` returns the best total under Ace flexibility.  When
some valuation of the hand (each revealed Ace 1 or 11) is at most 21, the
result is such a valuation, is at most 21 and is the largest of them; when
none is, the result is the total with every revealed Ace valued 1, which is
the valuation that counts no Ace as 11.  A result of at most 21 counts at most
one Ace as 11, and two revealed Aces total 12. -/
theorem getPoints_best_total (p : Player) (handIndex : Int) (hand : List Card)
    (hhand : p.hands[toSizeT handIndex]? = some hand) :
    ((∃ v ∈ aceValuations hand, v.1 ≤ 21) →
        p.getPoints handIndex ≤ 21 ∧
        (∃ v ∈ aceValuations hand, v.1 = p.getPoints handIndex) ∧
        ∀ v ∈ aceValuations hand, v.1 ≤ 21 → v.1 ≤ p.getPoints handIndex) ∧
    ((¬ ∃ v ∈ aceValuations hand, v.1 ≤ 21) → p.getPoints handIndex = hardTotal hand) ∧
    (hardTotal hand, 0) ∈ aceValuations hand ∧
    (p.getPoints handIndex ≤ 21 →
        ∀ v ∈ aceValuations hand, v.1 = p.getPoints handIndex → v.2 ≤ 1) ∧
    (∀ c0 c1 : Card, hand = [c0, c1] → c0.value = CardValue.ACE → c0.revealed = true →
        c1.value = CardValue.ACE → c1.revealed = true → p.getPoints handIndex = 12) := by
  have hget : p.getPoints handIndex = handTotal hand := by
    rw [Player.getPoints_eq, hhand]; rfl
  rw [hget, handTotal_eq]
  obtain ⟨j, hj, he, hall, hlast⟩ :=
    demote_spec (aceCount hand) (baseSum hand + 11 * aceCount hand)
  have hb := baseSum_nonneg hand
  rw [he]
  rw [he] at hlast
  refine ⟨?_, ?_, ?_, ?_, ?_⟩
  · rintro ⟨v, hv, hv21⟩
    obtain ⟨m, hm, rfl⟩ := (mem_aceValuations hand v).1 hv
    simp only at hv21
    have hle : baseSum hand + 11 * (aceCount hand : Int) - 10 * (j : Int) ≤ 21 := by
      by_contra hgt
      have := hlast (by omega)
      omega
    refine ⟨hle, ⟨(baseSum hand + aceCount hand + 10 * ((aceCount hand - j : Nat) : Int),
        aceCount hand - j), ?_, ?_⟩, ?_⟩
    · exact (mem_aceValuations hand _).2 ⟨aceCount hand - j, by omega, rfl⟩
    · simp only; omega
    · intro w hw hw21
      obtain ⟨n, hn, rfl⟩ := (mem_aceValuations hand w).1 hw
      simp only at hw21 ⊢
      by_contra hlt
      have := hall (aceCount hand - n) (by omega)
      omega
  · intro hnone
    have hgt : baseSum hand + (aceCount hand : Int) > 21 := by
      by_contra hle
      exact hnone ⟨(baseSum hand + aceCount hand + 10 * ((0 : Nat) : Int), 0),
        (mem_aceValuations hand _).2 ⟨0, by omega, rfl⟩, by simp only; omega⟩
    have := hlast (by omega)
    unfold hardTotal
    omega
  · exact (mem_aceValuations hand _).2 ⟨0, by omega, by simp [hardTotal]⟩
  · intro hle v hv hveq
    obtain ⟨m, hm, rfl⟩ := (mem_aceValuations hand v).1 hv
    simp only at hveq ⊢
    omega
  · rintro c0 c1 rfl h0 hr0 h1 hr1
    have hk : aceCount [c0, c1] = 2 := by simp [aceCount, h0, hr0, h1, hr1]
    have hs : baseSum [c0, c1] = 0 := by simp [baseSum, h0, hr0, h1, hr1]
    rw [hk] at hj hall hlast ⊢
    rw [hs] at hall hlast ⊢
    have h0' := hall 0
    have h1' := hall 1
    have h2' := hall 2
    by_cases hj1 : j = 1
    · subst hj1; norm_num
    · exfalso
      by_cases hj0 : j = 0
      · subst hj0; have := hlast (by norm_num); omega
      · have hj2 : j = 2 := by omega
        subst hj2; have := h1' (by omega); omega

theorem getPoints_best_total_witness :
    softHandPlayer.hands[toSizeT 0]?
        = some [faceUp .ACE, faceUp .NINE, faceDown .KING, faceUp .ACE] ∧
      (21, 1) ∈ aceValuations [faceUp .ACE, faceUp .NINE, faceDown .KING, faceUp .ACE] ∧
      softHandPlayer.getPoints 0 ≤ 21 :=
  ⟨by decide, by decide,
    ((getPoints_best_total softHandPlayer 0
      [faceUp .ACE, faceUp .NINE, faceDown .KING, faceUp .ACE] (by decide)).1
        ⟨(21, 1), by decide, by decide⟩).1⟩

/-- C3: face-down cards never contribute to a total: `Player::getPoints` gives
the same result when the face-down cards are removed from every hand, and a
hand that consists only of face-down cards totals 0. -/
theorem getPoints_ignores_face_down (p : Player) (handIndex : Int) :
    (Player.mk (p.hands.map (List.filter (fun card => card.revealed)))).getPoints handIndex
        = p.getPoints handIndex ∧
      (∀ hand : List Card, p.hands[toSizeT handIndex]? = some hand →
        (∀ card ∈ hand, card.revealed = false) → p.getPoints handIndex = 0) := by
  constructor
  · rw [Player.getPoints_eq, Player.getPoints_eq]
    simp only [List.getElem?_map]
    cases p.hands[toSizeT handIndex]? with
    | none => rfl
    | some hand => simp [handTotal_filter]
  · intro hand hhand hdown
    rw [Player.getPoints_eq, hhand]
    have hnil : hand.filter (fun card => card.revealed) = [] := by
      rw [List.filter_eq_nil_iff]
      intro card hc
      simp [hdown card hc]
    have := handTotal_filter hand
    rw [hnil] at this
    simp only [Option.map_some', Option.getD_some]
    rw [← this]
    rfl

theorem getPoints_ignores_face_down_witness :
    hiddenPlayer.hands[toSizeT 0]? = some [faceDown .KING, faceDown .ACE] ∧
      (∀ card ∈ [faceDown .KING, faceDown .ACE], card.revealed = false) ∧
      hiddenPlayer.getPoints 0 = 0 :=
  ⟨by decide, by decide,
    (getPoints_ignores_face_down hiddenPlayer 0).2 [faceDown .KING, faceDown .ACE]
      (by decide) (by decide)⟩

/-! ## Blackjack and split tests -/

/-- C4: at a valid hand index `Player::isBlackjack` is true exactly when the
hand has 2 cards and totals 21; a hand of a face-up Ace and a face-up King (in
either order) is a blackjack with total 21, and a hand of 3 or more cards is
never one, whatever its total. -/
theorem isBlackjack_iff (p : Player) (handIndex : Int) (hand : List Card)
    (hhand : p.hands[toSizeT handIndex]? = some hand) :
    (p.isBlackjack handIndex = true ↔ hand.length = 2 ∧ p.getPoints handIndex = 21) ∧
    (3 ≤ hand.length → p.isBlackjack handIndex = false) ∧
    (∀ s1 s2 : Char, hand.Perm [⟨CardValue.ACE, s1, true⟩, ⟨CardValue.KING, s2, true⟩] →
      p.isBlackjack handIndex = true ∧ p.getPoints handIndex = 21) := by
  obtain ⟨hlt, hget⟩ := List.getElem?_eq_some_iff.1 hhand
  have hbj : p.isBlackjack handIndex
      = (decide (hand.length = 2) && decide (p.getPoints handIndex = 21)) := by
    unfold Player.isBlackjack
    rw [dif_pos hlt]
    simp only [List.get_eq_getElem, hget]
  have hiff : p.isBlackjack handIndex = true ↔ hand.length = 2 ∧ p.getPoints handIndex = 21 := by
    rw [hbj]; simp
  refine ⟨hiff, ?_, ?_⟩
  · intro h3
    rw [hbj]
    have : ¬ hand.length = 2 := by omega
    simp [this]
  · intro s1 s2 hperm
    have htot : p.getPoints handIndex = 21 := by
      rw [Player.getPoints_eq, hhand]
      simp only [Option.map_some', Option.getD_some]
      rw [handTotal_perm hperm]
      rfl
    exact ⟨hiff.2 ⟨by simpa using hperm.length_eq, htot⟩, htot⟩

theorem isBlackjack_iff_witness :
    threeSevens.hands[toSizeT 0]? = some [faceUp .SEVEN, faceUp .SEVEN, faceUp .SEVEN] ∧
      threeSevens.getPoints 0 = 21 ∧ threeSevens.isBlackjack 0 = false :=
  ⟨by decide, by decide,
    (isBlackjack_iff threeSevens 0 [faceUp .SEVEN, faceUp .SEVEN, faceUp .SEVEN]
      (by decide)).2.1 (by decide)⟩

/-- C5, as the claim states it, fails: two face-down cards of different
scoring values (a 2 and a King) pass `Player::canSplit`, and a face-up Jack
with a face-down Jack, of equal scoring values, does not. -/
theorem canSplit_visibility_counterexample :
    ((Player.mk [[faceDown .TWO, faceDown .KING]]).canSplit 0 = true ∧
        scoringValue (faceDown .TWO) ≠ scoringValue (faceDown .KING)) ∧
      ((Player.mk [[faceUp .JACK, faceDown .JACK]]).canSplit 0 = false ∧
        scoringValue (faceUp .JACK) = scoringValue (faceDown .JACK)) := by
  decide

theorem Card.getPoints_zero (card : Card) :
    card.getPoints 0 = if card.revealed then scoringValue card else 0 := by
  obtain ⟨v, s, r⟩ := card
  cases r <;> cases v <;> simp [Card.getPoints, scoringValue, rankValue, CardValue.toInt]

/-- C5, amended: at a valid hand index `Player::canSplit` is true exactly when
the hand has 2 cards whose values are equal, where a face-down card has value 0
and a face-up card its scoring value (10 for ten and face cards, face value
for 2 to 9, Ace equal to Ace).  For two face-up cards this is equality of the
scoring values: true for Jack and Queen, false for Jack and 9. -/
theorem canSplit_iff (p : Player) (handIndex : Int) (hand : List Card)
    (hhand : p.hands[toSizeT handIndex]? = some hand) :
    (p.canSplit handIndex = true ↔
      ∃ c0 c1 : Card, hand = [c0, c1] ∧
        (if c0.revealed then scoringValue c0 else 0)
          = (if c1.revealed then scoringValue c1 else 0)) ∧
    (∀ c0 c1 : Card, hand = [c0, c1] → c0.revealed = true → c1.revealed = true →
      (p.canSplit handIndex = true ↔ scoringValue c0 = scoringValue c1)) ∧
    (∀ s1 s2 : Char, hand = [⟨CardValue.JACK, s1, true⟩, ⟨CardValue.QUEEN, s2, true⟩] →
      p.canSplit handIndex = true) ∧
    (∀ s1 s2 : Char, hand = [⟨CardValue.JACK, s1, true⟩, ⟨CardValue.NINE, s2, true⟩] →
      p.canSplit handIndex = false) := by
  obtain ⟨hlt, hget⟩ := List.getElem?_eq_some_iff.1 hhand
  have hmain : p.canSplit handIndex = true ↔
      ∃ c0 c1 : Card, hand = [c0, c1] ∧
        (if c0.revealed then scoringValue c0 else 0)
          = (if c1.revealed then scoringValue c1 else 0) := by
    unfold Player.canSplit
    rw [dif_pos hlt]
    simp only [List.get_eq_getElem, hget]
    match hand with
    | [] => simp
    | [_] => simp
    | [c0, c1] =>
      simp only [decide_eq_true_eq, Card.getPoints_zero]
      constructor
      · intro h
        exact ⟨c0, c1, rfl, h⟩
      · rintro ⟨a, b, hab, h⟩
        obtain ⟨rfl, rfl⟩ : c0 = a ∧ c1 = b := by simpa using hab
        exact h
    | _ :: _ :: _ :: _ => simp
  refine ⟨hmain, ?_, ?_, ?_⟩
  · rintro c0 c1 rfl h0 h1
    rw [hmain]
    constructor
    · rintro ⟨a, b, hab, h⟩
      obtain ⟨rfl, rfl⟩ : c0 = a ∧ c1 = b := by simpa using hab
      simpa [h0, h1] using h
    · intro h
      exact ⟨c0, c1, rfl, by simpa [h0, h1] using h⟩
  · rintro s1 s2 rfl
    rw [hmain]
    exact ⟨_, _, rfl, by simp [scoringValue, rankValue]⟩
  · rintro s1 s2 rfl
    rw [Bool.eq_false_iff, ne_eq, hmain]
    rintro ⟨c0, c1, heq, hval⟩
    simp only [List.cons.injEq, and_true] at heq
    obtain ⟨rfl, rfl⟩ := heq
    simp [scoringValue, rankValue] at hval

theorem canSplit_iff_witness :
    jackQueen.hands[toSizeT 0]? = some [faceUp .JACK, faceUp .QUEEN] ∧
      jackQueen.canSplit 0 = true :=
  ⟨by decide,
    (canSplit_iff jackQueen 0 [faceUp .JACK, faceUp .QUEEN] (by decide)).2.2.1 'H' 'H' rfl⟩

/-! ## Drawing and splitting -/

theorem toSizeT_out_of_range (i : Int) (n : Nat) (hlo : -2147483648 ≤ i) (hhi : i ≤ 2147483647)
    (hsize : n < 2 ^ 63) (hout : i < 0 ∨ (n : Int) ≤ i) : ¬ toSizeT i < n := by
  unfold toSizeT
  have h63 : (2 : Nat) ^ 63 = 9223372036854775808 := by norm_num
  omega

theorem Deck.drawCard_concat (shoe : List Card) (top : Card) (reveal : Bool) :
    (Deck.mk (shoe ++ [top])).drawCard reveal
      = some ({ top with revealed := reveal }, Deck.mk shoe) := by
  simp [Deck.drawCard]

theorem Player.canSplit_hand (p : Player) (handIndex : Int) (hand : List Card)
    (hhand : p.hands[toSizeT handIndex]? = some hand) (hsplit : p.canSplit handIndex = true) :
    ∃ c0 c1 : Card, hand = [c0, c1] := by
  obtain ⟨hlt, hget⟩ := List.getElem?_eq_some_iff.1 hhand
  unfold Player.canSplit at hsplit
  rw [dif_pos hlt] at hsplit
  simp only [List.get_eq_getElem, hget] at hsplit
  match hand, hsplit with
  | [c0, c1], _ => exact ⟨c0, c1, rfl⟩

/-- C6: on a hand that passes `Player::canSplit`, with a shoe that ends in the
two cards `second, top`, `Player::splitHand` returns with one hand more: hand
`i` is its first card followed by `top` face-up, the new last hand is its
second card followed by `second` face-up, every other hand is unchanged and
the shoe has lost exactly its last two cards. -/
theorem splitHand_splits (p : Player) (deck : Deck) (handIndex : Int) (hand shoe : List Card)
    (second top : Card)
    (hhand : p.hands[toSizeT handIndex]? = some hand)
    (hsplit : p.canSplit handIndex = true)
    (hshoe : deck.cards = shoe ++ [second, top]) :
    ∃ (c0 c1 : Card) (p1 : Player),
      hand = [c0, c1] ∧
      p.splitHand deck handIndex = some (p1, Deck.mk shoe) ∧
      p1.hands.length = p.hands.length + 1 ∧
      p1.hands[toSizeT handIndex]? = some [c0, { top with revealed := true }] ∧
      p1.hands[p.hands.length]? = some [c1, { second with revealed := true }] ∧
      p1.hands.getLast? = some [c1, { second with revealed := true }] ∧
      (∀ k : Nat, k < p.hands.length → k ≠ toSizeT handIndex → p1.hands[k]? = p.hands[k]?) := by
  obtain ⟨c0, c1, rfl⟩ := Player.canSplit_hand p handIndex hand hhand hsplit
  obtain ⟨hlt, hget⟩ := List.getElem?_eq_some_iff.1 hhand
  obtain ⟨cards⟩ := deck
  simp only at hshoe
  subst hshoe
  have hd1 : (Deck.mk (shoe ++ [second, top])).drawCard true
      = some ({ top with revealed := true }, Deck.mk (shoe ++ [second])) := by
    have := Deck.drawCard_concat (shoe ++ [second]) top true
    simpa using this
  refine ⟨c0, c1, ⟨p.hands.set (toSizeT handIndex) [c0, { top with revealed := true }]
      ++ [[c1, { second with revealed := true }]]⟩, rfl, ?_, ?_, ?_, ?_, ?_, ?_⟩
  · unfold Player.splitHand
    rw [dif_pos hlt]
    simp only [hsplit, Bool.not_true, Bool.false_eq_true, if_false, List.get_eq_getElem, hget,
      hd1, Deck.drawCard_concat]
    rfl
  · simp
  · simp only
    rw [List.getElem?_append_left (by simpa using hlt)]
    simp [List.getElem?_set, hlt]
  · simp only
    rw [List.getElem?_append_right (by simp)]
    simp
  · simp
  · intro k hk hne
    simp only
    rw [List.getElem?_append_left (by simpa using hk)]
    simp [List.getElem?_set, Ne.symm hne]

theorem splitHand_splits_witness :
    jackQueen.hands[toSizeT 0]? = some [faceUp .JACK, faceUp .QUEEN] ∧
      jackQueen.canSplit 0 = true ∧
      smallShoe.cards = [faceUp .KING] ++ [faceUp .NINE, faceUp .FIVE] ∧
      (jackQueen.splitHand smallShoe 0).map Prod.snd = some (Deck.mk [faceUp .KING]) :=
  ⟨by decide, by decide, by decide,
    match splitHand_splits jackQueen smallShoe 0 [faceUp .JACK, faceUp .QUEEN] [faceUp .KING]
      (faceUp .NINE) (faceUp .FIVE) (by decide) (by decide) (by decide) with
    | ⟨_, _, _, _, hs, _⟩ => by rw [hs]; rfl⟩

/-- C7, as the claim states it, fails: `Player::splitHand` has no hand-count
cap.  A participant who already holds 4 hands, the first a pair of eights, gets
a fifth hand and the shoe loses two cards. -/
theorem splitHand_cap_counterexample :
    fourPairs.hands.length = 4 ∧ fourPairs.canSplit 0 = true ∧
      fourPairs.splitHand smallShoe 0
        = some ({ hands := [[faceUp .EIGHT, faceUp .FIVE], [faceUp .EIGHT, faceUp .EIGHT],
              [faceUp .EIGHT, faceUp .EIGHT], [faceUp .EIGHT, faceUp .EIGHT],
              [faceUp .EIGHT, faceUp .NINE]] }, { cards := [faceUp .KING] }) ∧
      fourPairs.splitHand smallShoe 0 ≠ some (fourPairs, smallShoe) := by
  decide

/-- C7, amended: `Player::splitHand` leaves the hands and the shoe unchanged
when the hand index is out of range (negative included) or the hand does not
pass `canSplit`.  The hand-count cap is enforced by the caller `splitPair`:
with 4 or more hands it performs no split and leaves hands, shoe, flag and
input as they are, also when the named hand passes `canSplit`. -/
theorem splitHand_invalid_ignored (p : Player) (deck : Deck) (handIndex : Int)
    (hlo : -2147483648 ≤ handIndex) (hhi : handIndex ≤ 2147483647)
    (hsize : p.hands.length < 2 ^ 63) :
    ((handIndex < 0 ∨ (p.hands.length : Int) ≤ handIndex) →
        p.splitHand deck handIndex = some (p, deck)) ∧
    (p.canSplit handIndex = false → p.splitHand deck handIndex = some (p, deck)) ∧
    (4 ≤ p.hands.length → ∀ (resplitPossible : Bool) (input : List Char),
        splitPair p handIndex deck resplitPossible input
          = some (p, deck, resplitPossible, input)) := by
  refine ⟨?_, ?_, ?_⟩
  · intro hout
    unfold Player.splitHand
    rw [dif_neg (toSizeT_out_of_range handIndex _ hlo hhi hsize hout)]
  · intro hno
    unfold Player.splitHand
    split
    · simp [hno]
    · rfl
  · intro hcap resplitPossible input
    unfold splitPair
    have : ¬ p.hands.length < 4 := by omega
    simp [this]

theorem splitHand_invalid_ignored_witness :
    (-2147483648 : Int) ≤ 0 ∧ (0 : Int) ≤ 2147483647 ∧ fourPairs.hands.length < 2 ^ 63 ∧
      4 ≤ fourPairs.hands.length ∧ fourPairs.canSplit 0 = true ∧
      splitPair fourPairs 0 smallShoe false ['y'] = some (fourPairs, smallShoe, false, ['y']) :=
  ⟨by decide, by decide, by decide, by decide, by decide,
    (splitHand_invalid_ignored fourPairs smallShoe 0 (by decide) (by decide) (by decide)).2.2
      (by decide) false ['y']⟩

/-- C8: a rejected draw is a no-op.  `Player::drawCard` with a hand index
outside `0 .. handCount - 1` (negative included), or naming a hand that
already has 5 cards, returns with every hand and the shoe unchanged. -/
theorem drawCard_rejected_noop (p : Player) (deck : Deck) (handIndex : Int) (reveal : Bool)
    (hlo : -2147483648 ≤ handIndex) (hhi : handIndex ≤ 2147483647)
    (hsize : p.hands.length < 2 ^ 63) :
    ((handIndex < 0 ∨ (p.hands.length : Int) ≤ handIndex) →
        p.drawCard deck handIndex reveal = some (p, deck)) ∧
    (∀ hand : List Card, p.hands[toSizeT handIndex]? = some hand → hand.length = 5 →
        p.drawCard deck handIndex reveal = some (p, deck)) := by
  refine ⟨?_, ?_⟩
  · intro hout
    unfold Player.drawCard
    rw [dif_neg (toSizeT_out_of_range handIndex _ hlo hhi hsize hout)]
  · intro hand hhand hfull
    obtain ⟨hlt, hget⟩ := List.getElem?_eq_some_iff.1 hhand
    unfold Player.drawCard
    rw [dif_pos hlt]
    simp [hget, hfull]

theorem drawCard_rejected_noop_witness :
    (-2147483648 : Int) ≤ 0 ∧ (0 : Int) ≤ 2147483647 ∧ fullHandPlayer.hands.length < 2 ^ 63 ∧
      fullHandPlayer.hands[toSizeT 0]?
        = some [faceUp .TWO, faceUp .TWO, faceUp .THREE, faceUp .TWO, faceUp .TWO] ∧
      fullHandPlayer.drawCard smallShoe 0 true = some (fullHandPlayer, smallShoe) :=
  ⟨by decide, by decide, by decide, by decide,
    (drawCard_rejected_noop fullHandPlayer smallShoe 0 true (by decide) (by decide)
      (by decide)).2 [faceUp .TWO, faceUp .TWO, faceUp .THREE, faceUp .TWO, faceUp .TWO]
      (by decide) (by decide)⟩

/-! ## The dealer's turn -/

theorem Dealer.playLoop_stuck (s : Player × Deck)
    (hstuck : Dealer.playStep s = LoopStep.again s) (fuel : Nat) :
    Dealer.playLoop fuel s = Run.unfinished := by
  induction fuel with
  | zero => rfl
  | succ n ih => simp only [Dealer.playLoop, hstuck, ih]

/-- C9 fails on the code: the dealer dealt a face-up 2 and a face-down 3, with
a shoe that yields 2, 3, 2 and still holds a King and a Queen, reaches five
cards that total 12.  From then on `Player::drawCard` rejects every draw, the
state no longer changes and the test `getPoints(0) < 17` stays true: for every
number of loop evaluations `Dealer::play` has not returned.  The last three
conjuncts are the three draws, step by step. -/
theorem Dealer.play_does_not_terminate :
    Dealer.revealSecond lowDealer = some lowDealerRevealed ∧
      Dealer.playLoop 3 (lowDealerRevealed, lowShoe)
        = Dealer.playLoop 0 (stuckDealer, stuckShoe) ∧
      stuckDealer.getPoints 0 = 12 ∧
      Dealer.playStep (stuckDealer, stuckShoe) = LoopStep.again (stuckDealer, stuckShoe) ∧
      (∀ fuel : Nat, Dealer.play fuel lowDealer lowShoe = Run.unfinished) ∧
      Dealer.playStep (lowDealerRevealed, lowShoe)
        = LoopStep.again (⟨[[faceUp .TWO, ⟨.THREE, 'S', true⟩, faceUp .TWO]]⟩,
            ⟨[faceUp .QUEEN, faceUp .KING, faceUp .TWO, faceUp .THREE]⟩) ∧
      Dealer.playStep (⟨[[faceUp .TWO, ⟨.THREE, 'S', true⟩, faceUp .TWO]]⟩,
            ⟨[faceUp .QUEEN, faceUp .KING, faceUp .TWO, faceUp .THREE]⟩)
        = LoopStep.again (⟨[[faceUp .TWO, ⟨.THREE, 'S', true⟩, faceUp .TWO, faceUp .THREE]]⟩,
            ⟨[faceUp .QUEEN, faceUp .KING, faceUp .TWO]⟩) ∧
      Dealer.playStep (⟨[[faceUp .TWO, ⟨.THREE, 'S', true⟩, faceUp .TWO, faceUp .THREE]]⟩,
            ⟨[faceUp .QUEEN, faceUp .KING, faceUp .TWO]⟩)
        = LoopStep.again (stuckDealer, stuckShoe) := by
  have hstuck : Dealer.playStep (stuckDealer, stuckShoe)
      = LoopStep.again (stuckDealer, stuckShoe) := by decide
  refine ⟨by decide, by decide, by decide, hstuck, ?_, by decide, by decide, by decide⟩
  intro fuel
  have hreveal : Dealer.play fuel lowDealer lowShoe
      = Dealer.playLoop fuel (lowDealerRevealed, lowShoe) := rfl
  rw [hreveal]
  match fuel with
  | 0 => rfl
  | 1 => decide
  | 2 => decide
  | n + 3 =>
    have hthree : Dealer.playLoop (n + 3) (lowDealerRevealed, lowShoe)
        = Dealer.playLoop n (stuckDealer, stuckShoe) := by
      have h1 : Dealer.playStep (lowDealerRevealed, lowShoe)
          = LoopStep.again (⟨[[faceUp .TWO, ⟨.THREE, 'S', true⟩, faceUp .TWO]]⟩,
              ⟨[faceUp .QUEEN, faceUp .KING, faceUp .TWO, faceUp .THREE]⟩) := by decide
      have h2 : Dealer.playStep (⟨[[faceUp .TWO, ⟨.THREE, 'S', true⟩, faceUp .TWO]]⟩,
              ⟨[faceUp .QUEEN, faceUp .KING, faceUp .TWO, faceUp .THREE]⟩)
          = LoopStep.again (⟨[[faceUp .TWO, ⟨.THREE, 'S', true⟩, faceUp .TWO, faceUp .THREE]]⟩,
              ⟨[faceUp .QUEEN, faceUp .KING, faceUp .TWO]⟩) := by decide
      have h3 : Dealer.playStep
            (⟨[[faceUp .TWO, ⟨.THREE, 'S', true⟩, faceUp .TWO, faceUp .THREE]]⟩,
              ⟨[faceUp .QUEEN, faceUp .KING, faceUp .TWO]⟩)
          = LoopStep.again (stuckDealer, stuckShoe) := by decide
      simp only [Dealer.playLoop, h1, h2, h3]
    rw [hthree]
    exact Dealer.playLoop_stuck _ hstuck n

/-- C10, as the claim states it, fails: in the state `Dealer::play` reaches
from the Revealed hand 2, 3 after three draws the dealer's total is 12, yet
the step changes neither the hand, which keeps its five cards, nor the shoe,
which still holds two cards.  The last three conjuncts are the three draws,
step by step. -/
theorem Dealer.playStep_full_hand_counterexample :
    Dealer.playLoop 3 (lowDealerRevealed, lowShoe)
        = Dealer.playLoop 0 (stuckDealer, stuckShoe) ∧
      stuckDealer.getPoints 0 ≤ 16 ∧
      stuckShoe.cards.getLast? = some (faceUp .KING) ∧
      Dealer.playStep (stuckDealer, stuckShoe) = LoopStep.again (stuckDealer, stuckShoe) ∧
      Dealer.playStep (lowDealerRevealed, lowShoe)
        = LoopStep.again (⟨[[faceUp .TWO, ⟨.THREE, 'S', true⟩, faceUp .TWO]]⟩,
            ⟨[faceUp .QUEEN, faceUp .KING, faceUp .TWO, faceUp .THREE]⟩) ∧
      Dealer.playStep (⟨[[faceUp .TWO, ⟨.THREE, 'S', true⟩, faceUp .TWO]]⟩,
            ⟨[faceUp .QUEEN, faceUp .KING, faceUp .TWO, faceUp .THREE]⟩)
        = LoopStep.again (⟨[[faceUp .TWO, ⟨.THREE, 'S', true⟩, faceUp .TWO, faceUp .THREE]]⟩,
            ⟨[faceUp .QUEEN, faceUp .KING, faceUp .TWO]⟩) ∧
      Dealer.playStep (⟨[[faceUp .TWO, ⟨.THREE, 'S', true⟩, faceUp .TWO, faceUp .THREE]]⟩,
            ⟨[faceUp .QUEEN, faceUp .KING, faceUp .TWO]⟩)
        = LoopStep.again (stuckDealer, stuckShoe) := by
  decide

/-- C10, amended: at every step of the loop of `Dealer::play` the dealer never
hits on a total of 17 or more (the loop ends with hand and shoe as they are,
soft 17 of Ace and 6 included) and, while its hand has fewer than 5 cards and
the shoe is not empty, always hits on a total of 16 or less: the hand gains
exactly the shoe's last card, face-up, and the loop goes on from there. -/
theorem Dealer.playStep_policy (dealer : Player) (deck : Deck) :
    (17 ≤ dealer.getPoints 0 →
        Dealer.playStep (dealer, deck) = LoopStep.exit ∧
        ∀ fuel : Nat, Dealer.playLoop (fuel + 1) (dealer, deck) = Run.done (dealer, deck)) ∧
    (∀ s1 s2 : Char,
        dealer.hands = [[⟨CardValue.ACE, s1, true⟩, ⟨CardValue.SIX, s2, true⟩]] →
        Dealer.playStep (dealer, deck) = LoopStep.exit) ∧
    (dealer.getPoints 0 ≤ 16 →
        ∀ (hand : List Card) (rest : List (List Card)) (shoe : List Card) (top : Card),
          dealer.hands = hand :: rest → hand.length < 5 → deck.cards = shoe ++ [top] →
          Dealer.playStep (dealer, deck)
              = LoopStep.again
                  ({ hands := (hand ++ [{ top with revealed := true }]) :: rest }, Deck.mk shoe) ∧
          ∀ fuel : Nat, Dealer.playLoop (fuel + 1) (dealer, deck)
              = Dealer.playLoop fuel
                  ({ hands := (hand ++ [{ top with revealed := true }]) :: rest },
                    Deck.mk shoe)) := by
  have hstand : 17 ≤ dealer.getPoints 0 → Dealer.playStep (dealer, deck) = LoopStep.exit := by
    intro h17
    unfold Dealer.playStep
    rw [if_neg (by simpa using h17)]
  refine ⟨?_, ?_, ?_⟩
  · intro h17
    refine ⟨hstand h17, fun fuel => ?_⟩
    simp only [Dealer.playLoop, hstand h17]
  · intro s1 s2 hhands
    apply hstand
    obtain ⟨hands⟩ := dealer
    simp only at hhands
    subst hhands
    have : (Player.mk [[⟨CardValue.ACE, s1, true⟩, ⟨CardValue.SIX, s2, true⟩]]).getPoints 0
        = 17 := rfl
    omega
  · intro h16 hand rest shoe top hhands hlen hshoe
    obtain ⟨hands⟩ := dealer
    obtain ⟨cards⟩ := deck
    simp only at hhands hshoe
    subst hhands hshoe
    have hstep : Dealer.playStep (Player.mk (hand :: rest), Deck.mk (shoe ++ [top]))
        = LoopStep.again
            ({ hands := (hand ++ [{ top with revealed := true }]) :: rest }, Deck.mk shoe) := by
      have hlt : (Player.mk (hand :: rest)).getPoints 0 < 17 := by omega
      unfold Dealer.playStep
      rw [if_pos hlt]
      have hdraw : (Player.mk (hand :: rest)).drawCard (Deck.mk (shoe ++ [top])) 0
          = some ({ hands := (hand ++ [{ top with revealed := true }]) :: rest },
              Deck.mk shoe) := by
        unfold Player.drawCard
        have h0 : toSizeT 0 = 0 := rfl
        simp only [h0, List.length_cons, Nat.zero_lt_succ, dif_pos]
        simp [Deck.drawCard_concat, Nat.not_le.2 hlen]
      simp only [hdraw]
    refine ⟨hstep, fun fuel => ?_⟩
    simp only [Dealer.playLoop, hstep]

theorem Dealer.playStep_policy_witness :
    (17 : Int) ≤ softSeventeen.getPoints 0 ∧
      Dealer.playLoop 1 (softSeventeen, smallShoe) = Run.done (softSeventeen, smallShoe) :=
  ⟨by decide, ((Dealer.playStep_policy softSeventeen smallShoe).1 (by decide)).2 0⟩

/-! ## Settlement -/

/-- C11: the settlement step reports for a hand with total `p` against the
dealer's total `d`: bust if `p > 21`, whatever `d`; otherwise a win if
`d > 21`; otherwise a win if `p > d`; otherwise a loss if `p < d`; otherwise a
tie.  The settlement loop reports exactly one such outcome per player hand, in
index order. -/
theorem settlement_outcome (i : Nat) (p d : Int) :
    (p > 21 → settleHand i p d = Event.busted i) ∧
    (p ≤ 21 → d > 21 → settleHand i p d = Event.wins i) ∧
    (p ≤ 21 → d ≤ 21 → p > d → settleHand i p d = Event.wins i) ∧
    (p ≤ 21 → d ≤ 21 → p < d → settleHand i p d = Event.loses i) ∧
    (p ≤ 21 → d ≤ 21 → p = d → settleHand i p d = Event.ties i) ∧
    (∀ player dealer : Player,
      (settlement player dealer).length = player.hands.length ∧
      ∀ k : Nat, k < player.hands.length →
        (settlement player dealer)[k]?
          = some (settleHand k (player.getPoints k) (dealer.getPoints 0))) := by
  refine ⟨?_, ?_, ?_, ?_, ?_, ?_⟩
  · intro h
    simp [settleHand, h]
  · intro hp hd
    simp [settleHand, not_lt.2 hp, hd]
  · intro hp _ hgt
    simp [settleHand, not_lt.2 hp, hgt]
  · intro hp hd hlt
    have h1 : ¬ (d > 21 ∨ p > d) := by omega
    simp only [settleHand, gt_iff_lt, not_lt.2 hp, if_false]
    rw [if_neg (by simpa using h1), if_pos hlt]
  · intro hp hd heq
    have h1 : ¬ (d > 21 ∨ p > d) := by omega
    have h2 : ¬ p < d := by omega
    simp only [settleHand, gt_iff_lt, not_lt.2 hp, if_false]
    rw [if_neg (by simpa using h1), if_neg h2]
  · intro player dealer
    refine ⟨by simp [settlement], ?_⟩
    intro k hk
    simp [settlement, List.getElem?_range hk, hk]

theorem settlement_outcome_witness :
    (19 : Int) ≤ 21 ∧ (20 : Int) ≤ 21 ∧ (19 : Int) < 20 ∧
      settleHand 0 19 20 = Event.loses 0 :=
  ⟨by decide, by decide, by decide,
    (settlement_outcome 0 19 20).2.2.2.1 (by decide) (by decide) (by decide)⟩

/-! ## The shoe -/

theorem Deck.fillRank_values (rand : Nat → Nat) (cards : List Card) (j : CardValue) :
    ((List.range 4).foldl (fun cards _ => Deck.pushCard rand cards j) cards).map Card.value
      = cards.map Card.value ++ [j, j, j, j] := by
  have h4 : List.range 4 = [0, 1, 2, 3] := rfl
  simp [h4, Deck.pushCard]

theorem Deck.fillDeck_values (rand : Nat → Nat) (ranks : List CardValue) (cards : List Card) :
    (ranks.foldl
        (fun cards j => (List.range 4).foldl (fun cards _ => Deck.pushCard rand cards j) cards)
        cards).map Card.value
      = cards.map Card.value ++ ranks.flatMap (fun j => [j, j, j, j]) := by
  induction ranks generalizing cards with
  | nil => simp
  | cons j rest ih =>
    rw [List.foldl_cons, ih, Deck.fillRank_values]
    simp

theorem Deck.fillAll_values (rand : Nat → Nat) (decks : List Nat) (cards : List Card) :
    (decks.foldl
        (fun cards _ =>
          allRanks.foldl
            (fun cards j =>
              (List.range 4).foldl (fun cards _ => Deck.pushCard rand cards j) cards)
            cards)
        cards).map Card.value
      = cards.map Card.value ++ decks.flatMap (fun _ => allRanks.flatMap (fun j => [j, j, j, j])) := by
  induction decks generalizing cards with
  | nil => simp
  | cons i rest ih =>
    rw [List.foldl_cons, ih, Deck.fillDeck_values]
    simp

theorem Deck.fill_values (rand : Nat → Nat) :
    (Deck.fill rand).map Card.value = rankPattern := by
  unfold Deck.fill rankPattern
  rw [Deck.fillAll_values]
  simp

theorem Deck.randomSuit_mem (r : Nat) : Deck.randomSuit r ∈ ['H', 'D', 'C', 'S'] := by
  unfold Deck.randomSuit
  split <;> simp

theorem Deck.pushCard_fresh (rand : Nat → Nat) (cards : List Card) (j : CardValue)
    (h : ∀ card ∈ cards, Deck.freshCard card) :
    ∀ card ∈ Deck.pushCard rand cards j, Deck.freshCard card := by
  intro card hc
  rcases List.mem_append.1 hc with hc | hc
  · exact h card hc
  · rw [List.mem_singleton.1 hc]
    exact ⟨rfl, Deck.randomSuit_mem _⟩

theorem foldl_preserves {α β : Type} (P : β → Prop) (f : β → α → β)
    (hf : ∀ b a, P b → P (f b a)) (l : List α) (b : β) (hb : P b) : P (l.foldl f b) := by
  induction l generalizing b with
  | nil => exact hb
  | cons a rest ih => exact ih (f b a) (hf b a hb)

theorem Deck.fill_fresh (rand : Nat → Nat) : ∀ card ∈ Deck.fill rand, Deck.freshCard card := by
  unfold Deck.fill
  refine foldl_preserves (fun cards => ∀ card ∈ cards, Deck.freshCard card) _ ?_ _ _ (by simp)
  intro cards _ hcards
  refine foldl_preserves (fun cards => ∀ card ∈ cards, Deck.freshCard card) _ ?_ _ _ hcards
  intro cards j hcards
  refine foldl_preserves (fun cards => ∀ card ∈ cards, Deck.freshCard card) _ ?_ _ _ hcards
  intro cards _ hcards
  exact Deck.pushCard_fresh rand cards j hcards

set_option maxRecDepth 100000 in
/-- C14, as the claim states it, fails: with a random source that always
returns 0 the constructor gives every card the suit hearts, so the shoe holds
24 twos of hearts and no two of diamonds instead of 6 of each. -/
theorem Deck.fill_suits_counterexample :
    (Deck.fill zeroRand).countP (fun card => card.value = .TWO ∧ card.suit = 'D') = 0 ∧
      (Deck.fill zeroRand).countP (fun card => card.value = .TWO ∧ card.suit = 'H') = 24 ∧
      Deck.constructed zeroRand (Deck.mk (Deck.fill zeroRand)) := by
  refine ⟨by decide, by decide, List.Perm.refl _⟩

set_option maxRecDepth 100000 in
/-- C14, amended: for every outcome of the random source, the shoe built by
the `Deck` constructor holds exactly 312 cards, 24 of each of the 13 ranks,
every card face-up and with one of the suits H, D, C, S; the suit of a card
is whatever `randomSuit()` drew for it. -/
theorem Deck.constructed_composition (rand : Nat → Nat) (deck : Deck)
    (hdeck : Deck.constructed rand deck) :
    deck.cards.length = 312 ∧
    (∀ v : CardValue, deck.cards.countP (fun card => card.value = v) = 24) ∧
    (∀ card ∈ deck.cards, card.revealed = true ∧ card.suit ∈ ['H', 'D', 'C', 'S']) := by
  unfold Deck.constructed at hdeck
  refine ⟨?_, ?_, ?_⟩
  · rw [hdeck.length_eq, ← List.length_map (Deck.fill rand) Card.value, Deck.fill_values]
    rfl
  · intro v
    rw [hdeck.countP_eq]
    have hmap : (Deck.fill rand).countP (fun card => decide (card.value = v))
        = ((Deck.fill rand).map Card.value).countP (fun w => decide (w = v)) := by
      rw [List.countP_map]
      rfl
    rw [hmap, Deck.fill_values]
    cases v <;> rfl
  · intro card hc
    exact Deck.fill_fresh rand card (hdeck.mem_iff.1 hc)

set_option maxRecDepth 100000 in
theorem Deck.constructed_composition_witness :
    Deck.constructed zeroRand (Deck.mk (Deck.fill zeroRand)) ∧
      (Deck.mk (Deck.fill zeroRand)).cards.length = 312 :=
  ⟨List.Perm.refl _,
    (Deck.constructed_composition zeroRand (Deck.mk (Deck.fill zeroRand))
      (List.Perm.refl _)).1⟩

/-! ## The shoe only shrinks, hands stay small -/

theorem Deck.drawCard_result (deck : Deck) (reveal : Bool) (card : Card) (deck1 : Deck)
    (h : deck.drawCard reveal = some (card, deck1)) :
    deck1.cards = deck.cards.dropLast ∧ deck.cards ≠ [] ∧
      ∃ top : Card, deck.cards.getLast? = some top ∧ card = { top with revealed := reveal } := by
  unfold Deck.drawCard at h
  cases hl : deck.cards.getLast? with
  | none => simp [hl] at h
  | some top =>
    simp only [hl, Option.some.injEq, Prod.mk.injEq] at h
    obtain ⟨rfl, rfl⟩ := h
    refine ⟨rfl, ?_, top, rfl, rfl⟩
    intro hnil
    simp [hnil] at hl

theorem Player.drawCard_some (p : Player) (deck : Deck) (handIndex : Int) (reveal : Bool)
    (p1 : Player) (deck1 : Deck) (h : p.drawCard deck handIndex reveal = some (p1, deck1)) :
    (p1 = p ∧ deck1 = deck) ∨
      ∃ (hand : List Card) (card : Card), p.hands[toSizeT handIndex]? = some hand ∧
        hand.length < 5 ∧ deck.drawCard reveal = some (card, deck1) ∧
        p1 = { hands := p.hands.set (toSizeT handIndex) (hand ++ [card]) } := by
  unfold Player.drawCard at h
  split at h
  · next hlt =>
    simp only [List.get_eq_getElem] at h
    split at h
    · simp only [Option.some.injEq, Prod.mk.injEq] at h
      exact Or.inl ⟨h.1.symm, h.2.symm⟩
    · next hfull =>
      cases hd : deck.drawCard reveal with
      | none => simp [hd] at h
      | some r =>
        obtain ⟨card, d1⟩ := r
        simp only [hd, Option.some.injEq, Prod.mk.injEq] at h
        obtain ⟨rfl, rfl⟩ := h
        exact Or.inr ⟨_, card, List.getElem?_eq_getElem hlt, by omega, rfl, rfl⟩
  · simp only [Option.some.injEq, Prod.mk.injEq] at h
    exact Or.inl ⟨h.1.symm, h.2.symm⟩

theorem Player.splitHand_some (p : Player) (deck : Deck) (handIndex : Int)
    (p1 : Player) (deck1 : Deck) (h : p.splitHand deck handIndex = some (p1, deck1)) :
    (p1 = p ∧ deck1 = deck) ∨
      ∃ (c0 c1 card1 card2 : Card) (deckMid : Deck),
        p.hands[toSizeT handIndex]? = some [c0, c1] ∧ p.canSplit handIndex = true ∧
        deck.drawCard true = some (card1, deckMid) ∧
        deckMid.drawCard true = some (card2, deck1) ∧
        p1 = { hands := p.hands.set (toSizeT handIndex) [c0, card1] ++ [[c1, card2]] } := by
  unfold Player.splitHand at h
  split at h
  · next hlt =>
    by_cases hsplit : p.canSplit handIndex = true
    · have hhand := List.getElem?_eq_getElem hlt
      obtain ⟨c0, c1, hc⟩ := Player.canSplit_hand p handIndex _ hhand hsplit
      simp only [hsplit, Bool.not_true, Bool.false_eq_true, if_false, List.get_eq_getElem,
        hc] at h
      cases hd1 : deck.drawCard true with
      | none => simp [hd1] at h
      | some r1 =>
        obtain ⟨card1, deckMid⟩ := r1
        cases hd2 : deckMid.drawCard true with
        | none => simp [hd1, hd2] at h
        | some r2 =>
          obtain ⟨card2, d2⟩ := r2
          simp [hd1, hd2] at h
          obtain ⟨rfl, rfl⟩ := h
          exact Or.inr ⟨c0, c1, card1, card2, deckMid, by rw [hhand, hc], hsplit, rfl, hd2, rfl⟩
    · simp only [Bool.not_eq_true] at hsplit
      simp only [hsplit, Bool.not_false, if_true, Option.some.injEq, Prod.mk.injEq] at h
      exact Or.inl ⟨h.1.symm, h.2.symm⟩
  · simp only [Option.some.injEq, Prod.mk.injEq] at h
    exact Or.inl ⟨h.1.symm, h.2.symm⟩

theorem Dealer.drawInitialCards_some (dealer : Player) (deck : Deck) (p1 : Player)
    (deck1 : Deck) (h : Dealer.drawInitialCards dealer deck = some (p1, deck1)) :
    ∃ (c0 c1 : Card) (more : List Card) (rest : List (List Card)) (card1 card2 : Card)
        (deckMid : Deck),
      dealer.hands = (c0 :: c1 :: more) :: rest ∧
      deck.drawCard true = some (card1, deckMid) ∧
      deckMid.drawCard false = some (card2, deck1) ∧
      p1 = { hands := (card1 :: card2 :: more) :: rest } := by
  unfold Dealer.drawInitialCards at h
  split at h
  · next c0 c1 more rest hh =>
    cases hd1 : deck.drawCard true with
    | none => simp [hd1] at h
    | some r1 =>
      obtain ⟨card1, deckMid⟩ := r1
      cases hd2 : deckMid.drawCard false with
      | none => simp [hd1, hd2] at h
      | some r2 =>
        obtain ⟨card2, d2⟩ := r2
        simp [hd1, hd2] at h
        obtain ⟨rfl, rfl⟩ := h
        exact ⟨c0, c1, more, rest, card1, card2, deckMid, hh, rfl, hd2, rfl⟩
  · simp at h
theorem Dealer.playStep_again (s next : Player × Deck)
    (h : Dealer.playStep s = LoopStep.again next) :
    s.1.drawCard s.2 0 true = some next := by
  unfold Dealer.playStep at h
  split at h
  · cases hd : s.1.drawCard s.2 0 with
    | none => simp [hd] at h
    | some r => simpa [hd] using h
  · simp at h

theorem Player.drawCard_bounded (p : Player) (deck : Deck) (handIndex : Int) (reveal : Bool)
    (p1 : Player) (deck1 : Deck) (hinv : handsBounded p)
    (h : p.drawCard deck handIndex reveal = some (p1, deck1)) : handsBounded p1 := by
  rcases Player.drawCard_some p deck handIndex reveal p1 deck1 h with
    ⟨rfl, _⟩ | ⟨hand, card, _, hlen, _, rfl⟩
  · exact hinv
  · intro hand1 hmem
    rcases List.mem_or_eq_of_mem_set hmem with hold | rfl
    · exact hinv hand1 hold
    · simp only [List.length_append, List.length_singleton]; omega

theorem Player.drawCard_prefix (p : Player) (deck : Deck) (handIndex : Int) (reveal : Bool)
    (p1 : Player) (deck1 : Deck)
    (h : p.drawCard deck handIndex reveal = some (p1, deck1)) :
    deck1.cards <+: deck.cards := by
  rcases Player.drawCard_some p deck handIndex reveal p1 deck1 h with
    ⟨_, rfl⟩ | ⟨hand, card, _, _, hd, _⟩
  · exact List.prefix_refl _
  · rw [(Deck.drawCard_result deck reveal card deck1 hd).1]
    exact List.dropLast_prefix _

theorem Dealer.playLoop_prefix (fuel : Nat) (s final : Player × Deck)
    (h : Dealer.playLoop fuel s = Run.done final) : final.2.cards <+: s.2.cards := by
  induction fuel generalizing s with
  | zero => simp [Dealer.playLoop] at h
  | succ n ih =>
    unfold Dealer.playLoop at h
    cases hs : Dealer.playStep s with
    | exit =>
      simp only [hs, Run.done.injEq] at h
      subst h
      exact List.prefix_refl _
    | undefined => simp [hs] at h
    | again next =>
      simp only [hs] at h
      have hd := Dealer.playStep_again s next hs
      exact (ih next h).trans (Player.drawCard_prefix s.1 s.2 0 true next.1 next.2 hd)

/-- C18: hand size at most 5 is an invariant.  If no hand of a participant has
more than 5 cards, the same holds after `Player::drawCard`,
`Player::splitHand`, `Dealer::drawInitialCards`, `Dealer::revealCards`, the
opening statement of `Dealer::play` and every step of its loop; the freshly
constructed `Player` and `Dealer` satisfy it. -/
theorem handsBounded_invariant (p : Player) (hinv : handsBounded p) :
    (∀ (deck : Deck) (handIndex : Int) (reveal : Bool) (p1 : Player) (deck1 : Deck),
        p.drawCard deck handIndex reveal = some (p1, deck1) → handsBounded p1) ∧
    (∀ (deck : Deck) (handIndex : Int) (p1 : Player) (deck1 : Deck),
        p.splitHand deck handIndex = some (p1, deck1) → handsBounded p1) ∧
    (∀ (deck : Deck) (p1 : Player) (deck1 : Deck),
        Dealer.drawInitialCards p deck = some (p1, deck1) → handsBounded p1) ∧
    (∀ p1 : Player, Dealer.revealCards p = some p1 → handsBounded p1) ∧
    (∀ p1 : Player, Dealer.revealSecond p = some p1 → handsBounded p1) ∧
    (∀ (deck : Deck) (p1 : Player) (deck1 : Deck),
        Dealer.playStep (p, deck) = LoopStep.again (p1, deck1) → handsBounded p1) ∧
    handsBounded Player.new ∧ handsBounded Dealer.new := by
  refine ⟨?_, ?_, ?_, ?_, ?_, ?_, ?_, ?_⟩
  · intro deck handIndex reveal p1 deck1 h
    exact Player.drawCard_bounded p deck handIndex reveal p1 deck1 hinv h
  · intro deck handIndex p1 deck1 h
    rcases Player.splitHand_some p deck handIndex p1 deck1 h with
      ⟨rfl, _⟩ | ⟨c0, c1, card1, card2, deckMid, _, _, _, _, rfl⟩
    · exact hinv
    · intro hand hmem
      rcases List.mem_append.1 hmem with hset | hnew
      · rcases List.mem_or_eq_of_mem_set hset with hold | rfl
        · exact hinv hand hold
        · simp
      · rw [List.mem_singleton.1 hnew]
        simp
  · intro deck p1 deck1 h
    obtain ⟨c0, c1, more, rest, card1, card2, deckMid, hh, _, _, rfl⟩ :=
      Dealer.drawInitialCards_some p deck p1 deck1 h
    intro hand hmem
    have hfirst := hinv (c0 :: c1 :: more) (by rw [hh]; simp)
    rcases List.mem_cons.1 hmem with rfl | hrest
    · simpa using hfirst
    · exact hinv hand (by rw [hh]; exact List.mem_cons_of_mem _ hrest)
  · intro p1 h
    unfold Dealer.revealCards at h
    split at h
    · next hand rest hh =>
      simp only [Option.some.injEq] at h
      subst h
      intro hand1 hmem
      rcases List.mem_cons.1 hmem with rfl | hrest
      · simpa using hinv hand (by rw [hh]; simp)
      · exact hinv hand1 (by rw [hh]; exact List.mem_cons_of_mem _ hrest)
    · simp at h
  · intro p1 h
    unfold Dealer.revealSecond at h
    split at h
    · next c0 c1 more rest hh =>
      simp only [Option.some.injEq] at h
      subst h
      intro hand1 hmem
      rcases List.mem_cons.1 hmem with rfl | hrest
      · simpa using hinv (c0 :: c1 :: more) (by rw [hh]; simp)
      · exact hinv hand1 (by rw [hh]; exact List.mem_cons_of_mem _ hrest)
    · simp at h
  · intro deck p1 deck1 h
    exact Player.drawCard_bounded p deck 0 true p1 deck1 hinv
      (Dealer.playStep_again (p, deck) (p1, deck1) h)
  · intro hand hmem
    simp [Player.new] at hmem
    simp [hmem]
  · intro hand hmem
    simp [Dealer.new] at hmem
    simp [hmem]

theorem handsBounded_invariant_witness :
    handsBounded fullHandPlayer ∧
      fullHandPlayer.drawCard smallShoe 1 true
        = some ({ hands := [[faceUp .TWO, faceUp .TWO, faceUp .THREE, faceUp .TWO, faceUp .TWO],
              [faceUp .TEN, faceUp .FIVE]] }, { cards := [faceUp .KING, faceUp .NINE] }) ∧
      handsBounded { hands := [[faceUp .TWO, faceUp .TWO, faceUp .THREE, faceUp .TWO, faceUp .TWO],
              [faceUp .TEN, faceUp .FIVE]] } :=
  have hinv : handsBounded fullHandPlayer := by
    intro hand hmem
    simp [fullHandPlayer] at hmem
    rcases hmem with rfl | rfl <;> simp
  ⟨hinv, by decide,
    (handsBounded_invariant fullHandPlayer hinv).1 smallShoe 1 true _
      { cards := [faceUp .KING, faceUp .NINE] } (by decide)⟩

/-- C19: a card removed from the shoe is never returned.  On a non-empty shoe
`Deck::drawCard` returns the last card with rank and suit unchanged and the
requested face-up flag, and leaves the shoe without that card; after
`Player::drawCard`, `Player::splitHand`, `Dealer::drawInitialCards` and
`Dealer::play` the shoe is a prefix of the shoe before, so it has not grown. -/
theorem shoe_only_shrinks :
    (∀ (deck : Deck) (reveal : Bool) (hne : deck.cards ≠ []),
        deck.drawCard reveal
          = some (⟨(deck.cards.getLast hne).value, (deck.cards.getLast hne).suit, reveal⟩,
              Deck.mk deck.cards.dropLast) ∧
        deck.cards = deck.cards.dropLast ++ [deck.cards.getLast hne]) ∧
    (∀ (p : Player) (deck : Deck) (handIndex : Int) (reveal : Bool) (p1 : Player) (deck1 : Deck),
        p.drawCard deck handIndex reveal = some (p1, deck1) →
        deck1.cards <+: deck.cards ∧ deck1.cards.length ≤ deck.cards.length) ∧
    (∀ (p : Player) (deck : Deck) (handIndex : Int) (p1 : Player) (deck1 : Deck),
        p.splitHand deck handIndex = some (p1, deck1) →
        deck1.cards <+: deck.cards ∧ deck1.cards.length ≤ deck.cards.length) ∧
    (∀ (dealer : Player) (deck : Deck) (p1 : Player) (deck1 : Deck),
        Dealer.drawInitialCards dealer deck = some (p1, deck1) →
        deck1.cards <+: deck.cards ∧ deck1.cards.length ≤ deck.cards.length) ∧
    (∀ (fuel : Nat) (dealer : Player) (deck : Deck) (p1 : Player) (deck1 : Deck),
        Dealer.play fuel dealer deck = Run.done (p1, deck1) →
        deck1.cards <+: deck.cards ∧ deck1.cards.length ≤ deck.cards.length) := by
  have hdraw : ∀ (deck : Deck) (reveal : Bool) (card : Card) (deck1 : Deck),
      deck.drawCard reveal = some (card, deck1) → deck1.cards <+: deck.cards := by
    intro deck reveal card deck1 h
    rw [(Deck.drawCard_result deck reveal card deck1 h).1]
    exact List.dropLast_prefix _
  refine ⟨?_, ?_, ?_, ?_, ?_⟩
  · intro deck reveal hne
    refine ⟨?_, (List.dropLast_append_getLast hne).symm⟩
    unfold Deck.drawCard
    rw [List.getLast?_eq_getLast _ hne]
  · intro p deck handIndex reveal p1 deck1 h
    have hp := Player.drawCard_prefix p deck handIndex reveal p1 deck1 h
    exact ⟨hp, hp.length_le⟩
  · intro p deck handIndex p1 deck1 h
    have hp : deck1.cards <+: deck.cards := by
      rcases Player.splitHand_some p deck handIndex p1 deck1 h with
        ⟨_, rfl⟩ | ⟨c0, c1, card1, card2, deckMid, _, _, hd1, hd2, _⟩
      · exact List.prefix_refl _
      · exact (hdraw _ _ _ _ hd2).trans (hdraw _ _ _ _ hd1)
    exact ⟨hp, hp.length_le⟩
  · intro dealer deck p1 deck1 h
    obtain ⟨c0, c1, more, rest, card1, card2, deckMid, _, hd1, hd2, _⟩ :=
      Dealer.drawInitialCards_some dealer deck p1 deck1 h
    have hp : deck1.cards <+: deck.cards := (hdraw _ _ _ _ hd2).trans (hdraw _ _ _ _ hd1)
    exact ⟨hp, hp.length_le⟩
  · intro fuel dealer deck p1 deck1 h
    unfold Dealer.play at h
    cases hr : Dealer.revealSecond dealer with
    | none => simp [hr] at h
    | some dealer1 =>
      simp only [hr] at h
      have hp := Dealer.playLoop_prefix fuel (dealer1, deck) (p1, deck1) h
      exact ⟨hp, hp.length_le⟩

theorem shoe_only_shrinks_witness :
    Dealer.play 3 (Player.mk [[⟨.TEN, 'C', true⟩, ⟨.SIX, 'D', false⟩]]) smallShoe
        = Run.done (Player.mk [[⟨.TEN, 'C', true⟩, ⟨.SIX, 'D', true⟩, faceUp .FIVE]],
            Deck.mk [faceUp .KING, faceUp .NINE]) ∧
      (Deck.mk [faceUp .KING, faceUp .NINE]).cards <+: smallShoe.cards ∧
      (Deck.mk [faceUp .KING, faceUp .NINE]).cards.length ≤ smallShoe.cards.length :=
  ⟨by decide,
    shoe_only_shrinks.2.2.2.2 3 (Player.mk [[⟨.TEN, 'C', true⟩, ⟨.SIX, 'D', false⟩]]) smallShoe
      (Player.mk [[⟨.TEN, 'C', true⟩, ⟨.SIX, 'D', true⟩, faceUp .FIVE]])
      (Deck.mk [faceUp .KING, faceUp .NINE]) (by decide)⟩

/-! ## Small hands are never bust -/

theorem baseSum_aceCount_le (hand : List Card) :
    baseSum hand + 10 * (aceCount hand : Int) ≤ 10 * (hand.length : Int) := by
  induction hand with
  | nil => simp [baseSum, aceCount]
  | cons card rest ih =>
    obtain ⟨v, s, r⟩ := card
    cases r <;> cases v <;> simp [baseSum, aceCount, rankValue] <;> omega

theorem handTotal_le_of_length_le_two (hand : List Card) (hlen : hand.length ≤ 2) :
    handTotal hand ≤ 21 := by
  rw [handTotal_eq]
  obtain ⟨j, hj, he, _, hlast⟩ :=
    demote_spec (aceCount hand) (baseSum hand + 11 * aceCount hand)
  have hb := baseSum_nonneg hand
  have hle := baseSum_aceCount_le hand
  by_contra hgt
  have := hlast (by omega)
  omega

/-- C20: a hand of at most 2 cards is never bust.  `Player::getPoints` is at
most 21 for every hand of 0, 1 or 2 cards; so it is for the hand the player
holds after the two opening draws and for both hands `Player::splitHand`
produces. -/
theorem small_hand_never_bust :
    (∀ (p : Player) (handIndex : Int) (hand : List Card),
        p.hands[toSizeT handIndex]? = some hand → hand.length ≤ 2 →
        p.getPoints handIndex ≤ 21) ∧
    (∀ (deck deck1 deck2 : Deck) (p1 p2 : Player),
        Player.new.drawCard deck 0 true = some (p1, deck1) →
        p1.drawCard deck1 0 true = some (p2, deck2) → p2.getPoints 0 ≤ 21) ∧
    (∀ (p : Player) (deck : Deck) (handIndex : Int) (p1 : Player) (deck1 : Deck),
        p.canSplit handIndex = true → p.splitHand deck handIndex = some (p1, deck1) →
        ∃ first second : List Card,
          p1.hands[toSizeT handIndex]? = some first ∧ p1.hands.getLast? = some second ∧
          p1.hands.length = p.hands.length + 1 ∧
          first.length = 2 ∧ second.length = 2 ∧
          p1.getPoints handIndex ≤ 21 ∧ handTotal second ≤ 21) := by
  have hsmall : ∀ (p : Player) (handIndex : Int) (hand : List Card),
      p.hands[toSizeT handIndex]? = some hand → hand.length ≤ 2 →
      p.getPoints handIndex ≤ 21 := by
    intro p handIndex hand hhand hlen
    rw [Player.getPoints_eq, hhand]
    exact handTotal_le_of_length_le_two hand hlen
  refine ⟨hsmall, ?_, ?_⟩
  · intro deck deck1 deck2 p1 p2 h1 h2
    have h0 : toSizeT 0 = 0 := rfl
    rcases Player.drawCard_some _ _ _ _ _ _ h1 with ⟨rfl, _⟩ | ⟨hand, card, hh, _, _, rfl⟩
    · rcases Player.drawCard_some _ _ _ _ _ _ h2 with ⟨rfl, _⟩ | ⟨hand2, card2, hh2, _, _, rfl⟩
      · exact hsmall Player.new 0 [] rfl (by simp)
      · simp only [h0, Player.new, List.getElem?_cons_zero, Option.some.injEq] at hh2
        subst hh2
        exact hsmall _ 0 [card2] rfl (by simp)
    · simp only [h0, Player.new, List.getElem?_cons_zero, Option.some.injEq] at hh
      subst hh
      rcases Player.drawCard_some _ _ _ _ _ _ h2 with ⟨rfl, _⟩ | ⟨hand2, card2, hh2, _, _, rfl⟩
      · exact hsmall _ 0 [card] rfl (by simp)
      · simp only [h0, Player.new, List.set_cons_zero, List.nil_append,
          List.getElem?_cons_zero, Option.some.injEq] at hh2
        subst hh2
        exact hsmall _ 0 [card, card2] rfl (by simp)
  · intro p deck handIndex p1 deck1 hsplit h
    rcases Player.splitHand_some p deck handIndex p1 deck1 h with
      ⟨rfl, rfl⟩ | ⟨c0, c1, card1, card2, deckMid, hhand, _, _, _, rfl⟩
    · exfalso
      have hlt : toSizeT handIndex < p1.hands.length := by
        unfold Player.canSplit at hsplit
        by_contra hn
        rw [dif_neg hn] at hsplit
        exact Bool.false_ne_true hsplit
      obtain ⟨c0, c1, hc⟩ := Player.canSplit_hand p1 handIndex _
        (List.getElem?_eq_getElem hlt) hsplit
      unfold Player.splitHand at h
      rw [dif_pos hlt] at h
      simp only [hsplit, Bool.not_true, Bool.false_eq_true, if_false, List.get_eq_getElem,
        hc] at h
      cases hd1 : deck1.drawCard true with
      | none => simp [hd1] at h
      | some r1 =>
        obtain ⟨k1, dm⟩ := r1
        cases hd2 : dm.drawCard true with
        | none => simp [hd1, hd2] at h
        | some r2 =>
          obtain ⟨k2, d2⟩ := r2
          simp [hd1, hd2] at h
          have hlen := congrArg (fun q : Player => q.hands.length) h.1
          simp at hlen
    · obtain ⟨hlt, _⟩ := List.getElem?_eq_some_iff.1 hhand
      have hfirst : (p.hands.set (toSizeT handIndex) [c0, card1] ++ [[c1, card2]])[toSizeT handIndex]?
          = some [c0, card1] := by
        rw [List.getElem?_append_left (by simpa using hlt)]
        simp [List.getElem?_set, hlt]
      refine ⟨[c0, card1], [c1, card2], hfirst, by simp, by simp, rfl, rfl, ?_, ?_⟩
      · exact hsmall _ handIndex [c0, card1] hfirst (by simp)
      · exact handTotal_le_of_length_le_two _ (by simp)

theorem small_hand_never_bust_witness :
    jackQueen.hands[toSizeT 0]? = some [faceUp .JACK, faceUp .QUEEN] ∧
      [faceUp .JACK, faceUp .QUEEN].length ≤ 2 ∧ jackQueen.getPoints 0 ≤ 21 :=
  ⟨by decide, by decide,
    small_hand_never_bust.1 jackQueen 0 [faceUp .JACK, faceUp .QUEEN] (by decide) (by decide)⟩

/-! ## Rounds -/

theorem Player.drawCard_zero_concat (hand : List Card) (others : List (List Card))
    (shoe : List Card) (top : Card) (reveal : Bool) (hlen : hand.length < 5) :
    (Player.mk (hand :: others)).drawCard (Deck.mk (shoe ++ [top])) 0 reveal
      = some ({ hands := (hand ++ [{ top with revealed := reveal }]) :: others },
          Deck.mk shoe) := by
  unfold Player.drawCard
  have h0 : toSizeT 0 = 0 := rfl
  simp only [h0, List.length_cons, Nat.zero_lt_succ, dif_pos]
  simp [Deck.drawCard_concat, Nat.not_le.2 hlen]

theorem Dealer.drawInitialCards_new (shoe : List Card) (second first : Card) :
    Dealer.drawInitialCards Dealer.new (Deck.mk (shoe ++ [second, first]))
      = some ({ hands := [[{ first with revealed := true },
                           { second with revealed := false }]] }, Deck.mk shoe) := by
  have hd : shoe ++ [second, first] = (shoe ++ [second]) ++ [first] := by simp
  rw [hd]
  simp only [Dealer.drawInitialCards, Dealer.new, Deck.drawCard_concat]
  rfl

/-- The split phase when the only hand is offered and declined. -/
theorem splitPhase_declined (fuel : Nat) (player : Player) (deck : Deck) (more : List Char)
    (log : List Event) (hone : player.hands.length = 1) (hsplit : player.canSplit 0 = true) :
    splitPhase (fuel + 2) (Table.mk player deck ('n' :: more) log)
      = Run.done (Table.mk player deck more (log ++ [Event.splitPrompt 0])) := by
  have hstep0 : splitScanStep (0, false, Table.mk player deck ('n' :: more) log)
      = LoopStep.again (1, false, Table.mk player deck more (log ++ [Event.splitPrompt 0])) := by
    simp [splitScanStep, hone, splitPair, hsplit, splitPairPrompt]
  have hstep1 : splitScanStep (1, false, Table.mk player deck more (log ++ [Event.splitPrompt 0]))
      = LoopStep.exit := by
    simp [splitScanStep, hone]
  have hscan : splitScan (fuel + 2) (Table.mk player deck ('n' :: more) log)
      = Run.done (false, Table.mk player deck more (log ++ [Event.splitPrompt 0])) := by
    simp only [splitScan, runLoop, hstep0, hstep1]
  simp only [splitPhase, splitPhaseLoop, hscan, if_true, Bool.false_eq_true, if_false]
/-- C16: the end-to-end round.  With a shoe whose draws yield the 10 of clubs
and the 6 of diamonds to the dealer, the 7 of spades and the 7 of hearts to
the player, then two fives, and the decisions decline split, hit, stand,
`playGame` returns: the split is offered once, the player stands at 19 on
three cards, the dealer's revealed 6 gives 16, the dealer draws one card,
stops at 21, and the single player hand is reported as a loss. -/
theorem playGame_seven_pair_scenario (rest : List Card) (s1 s2 : Char) (more : List Char)
    (fuel : Nat) :
    playGame (fuel + 2)
        (Deck.mk (rest ++ [⟨.FIVE, s2, true⟩, ⟨.FIVE, s1, true⟩, ⟨.SEVEN, 'H', true⟩,
          ⟨.SEVEN, 'S', true⟩, ⟨.SIX, 'D', true⟩, ⟨.TEN, 'C', true⟩]))
        ('n' :: 'y' :: 'n' :: more)
      = Run.done
          { player := Player.mk [[⟨.SEVEN, 'S', true⟩, ⟨.SEVEN, 'H', true⟩, ⟨.FIVE, s1, true⟩]]
            dealer := Player.mk [[⟨.TEN, 'C', true⟩, ⟨.SIX, 'D', true⟩, ⟨.FIVE, s2, true⟩]]
            deck := Deck.mk rest
            input := more
            log := [Event.splitPrompt 0, Event.hitPrompt 0, Event.hitPrompt 0, Event.loses 0] } ∧
    (Player.mk [[⟨.SEVEN, 'S', true⟩, ⟨.SEVEN, 'H', true⟩, ⟨.FIVE, s1, true⟩]]).getPoints 0 = 19 ∧
    Dealer.revealSecond (Player.mk [[⟨.TEN, 'C', true⟩, ⟨.SIX, 'D', false⟩]])
      = some (Player.mk [[⟨.TEN, 'C', true⟩, ⟨.SIX, 'D', true⟩]]) ∧
    (Player.mk [[⟨.TEN, 'C', true⟩, ⟨.SIX, 'D', true⟩]]).getPoints 0 = 16 ∧
    (Player.mk [[⟨.TEN, 'C', true⟩, ⟨.SIX, 'D', true⟩, ⟨.FIVE, s2, true⟩]]).getPoints 0 = 21 := by
  have hd : rest ++ [⟨.FIVE, s2, true⟩, ⟨.FIVE, s1, true⟩, ⟨.SEVEN, 'H', true⟩,
        ⟨.SEVEN, 'S', true⟩, ⟨.SIX, 'D', true⟩, (⟨.TEN, 'C', true⟩ : Card)]
      = ((((rest ++ [⟨.FIVE, s2, true⟩]) ++ [⟨.FIVE, s1, true⟩]) ++ [⟨.SEVEN, 'H', true⟩])
          ++ [⟨.SEVEN, 'S', true⟩]) ++ [⟨.SIX, 'D', true⟩, ⟨.TEN, 'C', true⟩] := by simp
  have hplayer19 :
      (Player.mk [[⟨.SEVEN, 'S', true⟩, ⟨.SEVEN, 'H', true⟩, ⟨.FIVE, s1, true⟩]]).getPoints 0
        = 19 := rfl
  have hdealer16 :
      (Player.mk [[⟨.TEN, 'C', true⟩, ⟨.SIX, 'D', true⟩]]).getPoints 0 = 16 := rfl
  have hdealer21 :
      (Player.mk [[⟨.TEN, 'C', true⟩, ⟨.SIX, 'D', true⟩, ⟨.FIVE, s2, true⟩]]).getPoints 0
        = 21 := rfl
  refine ⟨?_, hplayer19, rfl, hdealer16, hdealer21⟩
  have hnew : Player.new = Player.mk ([] :: []) := rfl
  have hturn : playerTurn (Table.mk (Player.mk [[⟨.SEVEN, 'S', true⟩, ⟨.SEVEN, 'H', true⟩]])
        (Deck.mk ((rest ++ [⟨.FIVE, s2, true⟩]) ++ [⟨.FIVE, s1, true⟩]))
        ('y' :: 'n' :: more) [Event.splitPrompt 0])
      = some (Table.mk
          (Player.mk [[⟨.SEVEN, 'S', true⟩, ⟨.SEVEN, 'H', true⟩, ⟨.FIVE, s1, true⟩]])
          (Deck.mk (rest ++ [⟨.FIVE, s2, true⟩])) more
          [Event.splitPrompt 0, Event.hitPrompt 0, Event.hitPrompt 0]) := by
    have hnobj : (Player.mk [[⟨.SEVEN, 'S', true⟩, ⟨.SEVEN, 'H', true⟩]]).isBlackjack 0
        = false := rfl
    have hdraw := Player.drawCard_zero_concat [⟨.SEVEN, 'S', true⟩, ⟨.SEVEN, 'H', true⟩] []
      (rest ++ [⟨.FIVE, s2, true⟩]) ⟨.FIVE, s1, true⟩ true (by simp)
    simp only [List.cons_append, List.nil_append] at hdraw
    simp only [playerTurn, hnobj, Bool.false_eq_true, if_false, List.length_singleton,
      hitHands, Nat.lt_one_iff, if_true, hitLoop]
    simp only [Nat.cast_zero, hdraw, hplayer19]
    simp [hitHands, hitLoop]
  have hplay : Dealer.play (fuel + 2) (Player.mk [[⟨.TEN, 'C', true⟩, ⟨.SIX, 'D', false⟩]])
        (Deck.mk (rest ++ [⟨.FIVE, s2, true⟩]))
      = Run.done (Player.mk [[⟨.TEN, 'C', true⟩, ⟨.SIX, 'D', true⟩, ⟨.FIVE, s2, true⟩]],
          Deck.mk rest) := by
    have hstep0 : Dealer.playStep (Player.mk [[⟨.TEN, 'C', true⟩, ⟨.SIX, 'D', true⟩]],
          Deck.mk (rest ++ [⟨.FIVE, s2, true⟩]))
        = LoopStep.again
            (Player.mk [[⟨.TEN, 'C', true⟩, ⟨.SIX, 'D', true⟩, ⟨.FIVE, s2, true⟩]],
              Deck.mk rest) := by
      have hdraw := Player.drawCard_zero_concat [⟨.TEN, 'C', true⟩, ⟨.SIX, 'D', true⟩] []
        rest ⟨.FIVE, s2, true⟩ true (by simp)
      simp only [List.cons_append, List.nil_append] at hdraw
      simp only [Dealer.playStep, hdealer16, hdraw]
      rfl
    have hstep1 : Dealer.playStep
          (Player.mk [[⟨.TEN, 'C', true⟩, ⟨.SIX, 'D', true⟩, ⟨.FIVE, s2, true⟩]], Deck.mk rest)
        = LoopStep.exit := by
      simp only [Dealer.playStep, hdealer21]
      rfl
    have hrev : Dealer.revealSecond (Player.mk [[⟨.TEN, 'C', true⟩, ⟨.SIX, 'D', false⟩]])
        = some (Player.mk [[⟨.TEN, 'C', true⟩, ⟨.SIX, 'D', true⟩]]) := rfl
    simp only [Dealer.play, hrev, Dealer.playLoop, hstep0, hstep1]
  have hsplit := splitPhase_declined fuel
    (Player.mk [[⟨.SEVEN, 'S', true⟩, ⟨.SEVEN, 'H', true⟩]])
    (Deck.mk ((rest ++ [⟨.FIVE, s2, true⟩]) ++ [⟨.FIVE, s1, true⟩])) ('y' :: 'n' :: more) []
    rfl rfl
  have hdeal := Dealer.drawInitialCards_new
    ((((rest ++ [⟨.FIVE, s2, true⟩]) ++ [⟨.FIVE, s1, true⟩]) ++ [⟨.SEVEN, 'H', true⟩])
          ++ [⟨.SEVEN, 'S', true⟩]) ⟨.SIX, 'D', true⟩ ⟨.TEN, 'C', true⟩
  have hp1 := Player.drawCard_zero_concat [] []
    (((rest ++ [⟨.FIVE, s2, true⟩]) ++ [⟨.FIVE, s1, true⟩]) ++ [⟨.SEVEN, 'H', true⟩])
    ⟨.SEVEN, 'S', true⟩ true (by simp)
  have hp2 := Player.drawCard_zero_concat [⟨.SEVEN, 'S', true⟩] []
    ((rest ++ [⟨.FIVE, s2, true⟩]) ++ [⟨.FIVE, s1, true⟩])
    ⟨.SEVEN, 'H', true⟩ true (by simp)
  simp only [List.cons_append, List.nil_append] at hp1 hp2
  rw [hd]
  simp only [playGame, hdeal, hnew, hp1, hp2, hsplit, List.nil_append, hturn, hplay]
  rfl

/-- C12 fails on the code: the player is dealt two Aces, splits, and hand 0
receives a King.  `player.isBlackjack()` looks at hand 0 only, so the round
announces a blackjack and skips the whole hit/stand phase although a split
occurred: hand 1, an Ace and a 5, gets no decision, and the two decisions
waiting on the input stay unread. -/
theorem playGame_split_aces_skips_turn :
    playGame 4 splitAcesShoe ['y', 'n', 'n']
      = Run.done
          { player := Player.mk [[⟨.ACE, 'S', true⟩, faceUp .KING], [⟨.ACE, 'H', true⟩, faceUp .FIVE]]
            dealer := Player.mk [[⟨.TEN, 'C', true⟩, ⟨.SIX, 'D', true⟩, faceUp .NINE]]
            deck := Deck.mk []
            input := ['n', 'n']
            log := [Event.splitPrompt 0, Event.blackjack, Event.wins 0, Event.wins 1] } ∧
      (Player.mk [[⟨.ACE, 'S', true⟩, faceUp .KING], [⟨.ACE, 'H', true⟩, faceUp .FIVE]]).getPoints 1
        = 16 := by
  decide

/-- C13, as the claim states it, fails: a player dealt Ace and King is
announced a blackjack and the same hand is then settled against the dealer
like any other, as a regular win against the dealer's 17 and as a tie
against the dealer's own 21. -/
theorem playGame_natural_counterexample :
    playGame 2 naturalShoe []
      = Run.done
          { player := Player.mk [[⟨.ACE, 'C', true⟩, ⟨.KING, 'D', true⟩]]
            dealer := Player.mk [[⟨.TEN, 'C', true⟩, ⟨.SEVEN, 'D', true⟩]]
            deck := Deck.mk [faceUp .TWO]
            input := []
            log := [Event.blackjack, Event.wins 0] } ∧
      playGame 2 twoNaturalsShoe []
      = Run.done
          { player := Player.mk [[⟨.ACE, 'C', true⟩, ⟨.KING, 'D', true⟩]]
            dealer := Player.mk [[⟨.ACE, 'S', true⟩, ⟨.QUEEN, 'D', true⟩]]
            deck := Deck.mk [faceUp .TWO]
            input := []
            log := [Event.blackjack, Event.ties 0] } := by
  decide

theorem Table.log_append_nil (t : Table) :
    ({ player := t.player, deck := t.deck, input := t.input, log := t.log ++ [] } : Table) = t := by
  cases t
  simp

/-- The split phase when the only hand cannot be split: nothing is offered. -/
theorem splitPhase_no_offer (fuel : Nat) (t : Table) (hone : t.player.hands.length = 1)
    (hsplit : t.player.canSplit 0 = false) :
    splitPhase (fuel + 2) t = Run.done t := by
  have hstep0 : splitScanStep (0, false, t) = LoopStep.again (1, false, t) := by
    simp [splitScanStep, hone, splitPair, hsplit, Table.log_append_nil]
  have hstep1 : splitScanStep (1, false, t) = LoopStep.exit := by
    simp [splitScanStep, hone]
  have hscan : splitScan (fuel + 2) t = Run.done (false, t) := by
    simp only [splitScan, runLoop, hstep0, hstep1]
  simp only [splitPhase, splitPhaseLoop, hscan, if_true, Bool.false_eq_true, if_false]

theorem natural_pair (v1 v2 : CardValue) (s1 s2 : Char)
    (h21 : handTotal [⟨v1, s1, true⟩, ⟨v2, s2, true⟩] = 21) :
    (Player.mk [[⟨v1, s1, true⟩, ⟨v2, s2, true⟩]]).canSplit 0 = false ∧
      (Player.mk [[⟨v1, s1, true⟩, ⟨v2, s2, true⟩]]).isBlackjack 0 = true ∧
      (Player.mk [[⟨v1, s1, true⟩, ⟨v2, s2, true⟩]]).getPoints 0 = 21 := by
  have hget : (Player.mk [[⟨v1, s1, true⟩, ⟨v2, s2, true⟩]]).getPoints 0 = 21 := h21
  have h0 : toSizeT 0 = 0 := rfl
  refine ⟨?_, ?_, hget⟩
  · cases v1 <;> cases v2 <;>
      first
      | (exfalso; revert h21; simp [handTotal, scoreStep, demote, Card.getPoints, CardValue.toInt]; done)
      | simp [Player.canSplit, h0, Card.getPoints, CardValue.toInt]
  · simp [Player.isBlackjack, h0, hget]

theorem Dealer.playLoop_hands_length (fuel : Nat) (s final : Player × Deck)
    (h : Dealer.playLoop fuel s = Run.done final) :
    final.1.hands.length = s.1.hands.length := by
  induction fuel generalizing s with
  | zero => simp [Dealer.playLoop] at h
  | succ n ih =>
    unfold Dealer.playLoop at h
    cases hs : Dealer.playStep s with
    | exit =>
      simp only [hs, Run.done.injEq] at h
      subst h
      rfl
    | undefined => simp [hs] at h
    | again next =>
      simp only [hs] at h
      have hd := Dealer.playStep_again s next hs
      rw [ih next h]
      rcases Player.drawCard_some s.1 s.2 0 true next.1 next.2 hd with
        ⟨h1, _⟩ | ⟨hand, card, _, _, _, h1⟩
      · rw [h1]
      · rw [h1]
        simp

/-- C13, amended: a natural blackjack is announced and then settled like any
other hand.  For every shoe that deals the player a two-card 21, whenever the
dealer's turn returns, `playGame` returns too: no split was offered, the log
is the announcement followed by one settlement line for the hand, a regular
win when the dealer's final total is not 21 and a tie when it is, and no
decision was read from the input. -/
theorem playGame_natural_settled (rest : List Card) (d1 d2 : Card) (v1 v2 : CardValue)
    (s1 s2 : Char) (r1 r2 : Bool) (input : List Char) (fuel : Nat)
    (dealerFinal : Player) (deckFinal : Deck)
    (h21 : handTotal [⟨v1, s1, true⟩, ⟨v2, s2, true⟩] = 21)
    (hplay : Dealer.play (fuel + 2)
        (Player.mk [[{ d1 with revealed := true }, { d2 with revealed := false }]])
        (Deck.mk rest) = Run.done (dealerFinal, deckFinal)) :
    ∃ dealerShown : Player,
      Dealer.revealCards dealerFinal = some dealerShown ∧
      playGame (fuel + 2) (Deck.mk (rest ++ [⟨v2, s2, r2⟩, ⟨v1, s1, r1⟩, d2, d1])) input
        = Run.done
            { player := Player.mk [[⟨v1, s1, true⟩, ⟨v2, s2, true⟩]]
              dealer := dealerShown
              deck := deckFinal
              input := input
              log := [Event.blackjack,
                if dealerShown.getPoints 0 = 21 then Event.ties 0 else Event.wins 0] } := by
  obtain ⟨hnosplit, hbj, hget⟩ := natural_pair v1 v2 s1 s2 h21
  have hlen : dealerFinal.hands.length = 1 := by
    unfold Dealer.play at hplay
    have hrev : Dealer.revealSecond
        (Player.mk [[{ d1 with revealed := true }, { d2 with revealed := false }]])
        = some (Player.mk [[{ d1 with revealed := true }, { d2 with revealed := true }]]) := rfl
    rw [hrev] at hplay
    exact Dealer.playLoop_hands_length _ _ _ hplay
  obtain ⟨hands⟩ := dealerFinal
  match hands, hlen with
  | [hand], _ =>
    refine ⟨Player.mk [hand.map (fun card : Card => { card with revealed := true })], rfl, ?_⟩
    have hd : rest ++ [⟨v2, s2, r2⟩, ⟨v1, s1, r1⟩, d2, d1]
        = ((rest ++ [⟨v2, s2, r2⟩]) ++ [⟨v1, s1, r1⟩]) ++ [d2, d1] := by simp
    have hnew : Player.new = Player.mk ([] :: []) := rfl
    have hdeal := Dealer.drawInitialCards_new ((rest ++ [⟨v2, s2, r2⟩]) ++ [⟨v1, s1, r1⟩]) d2 d1
    have hp1 := Player.drawCard_zero_concat [] [] (rest ++ [⟨v2, s2, r2⟩]) ⟨v1, s1, r1⟩ true
      (by simp)
    have hp2 := Player.drawCard_zero_concat [⟨v1, s1, true⟩] [] rest ⟨v2, s2, r2⟩ true
      (by simp)
    simp only [List.cons_append, List.nil_append] at hp1 hp2
    have hsplit := splitPhase_no_offer fuel
      (Table.mk (Player.mk [[⟨v1, s1, true⟩, ⟨v2, s2, true⟩]]) (Deck.mk rest) input [])
      rfl hnosplit
    have hturn : playerTurn
        (Table.mk (Player.mk [[⟨v1, s1, true⟩, ⟨v2, s2, true⟩]]) (Deck.mk rest) input [])
        = some (Table.mk (Player.mk [[⟨v1, s1, true⟩, ⟨v2, s2, true⟩]]) (Deck.mk rest) input
            [Event.blackjack]) := by
      simp only [playerTurn, hbj, if_true, List.nil_append]
    have hrevAll : Dealer.revealCards (Player.mk [hand])
        = some (Player.mk [hand.map (fun card : Card => { card with revealed := true })]) := rfl
    have hsettle : settlement (Player.mk [[⟨v1, s1, true⟩, ⟨v2, s2, true⟩]])
          (Player.mk [hand.map (fun card : Card => { card with revealed := true })])
        = [if (Player.mk [hand.map (fun card : Card => { card with revealed := true })]).getPoints 0
              = 21 then Event.ties 0 else Event.wins 0] := by
      have hrange : List.range 1 = [0] := rfl
      simp only [settlement, List.length_singleton, hrange, List.map_cons, List.map_nil,
        Nat.cast_zero, hget, settleHand]
      by_cases hd21 :
          (Player.mk [hand.map (fun card : Card => { card with revealed := true })]).getPoints 0 = 21
      · simp [hd21]
      · have hor : (Player.mk [hand.map (fun card : Card => { card with revealed := true })]).getPoints 0
              > 21 ∨ 21 > (Player.mk [hand.map
                (fun card : Card => { card with revealed := true })]).getPoints 0 := by omega
        simp [hd21, hor]
    rw [hd]
    simp only [playGame, hdeal, hnew, hp1, hp2, hsplit, hturn, hplay, hrevAll, hsettle,
      List.singleton_append]

theorem playGame_natural_settled_witness :
    handTotal [⟨.ACE, 'C', true⟩, ⟨.KING, 'D', true⟩] = 21 ∧
      Dealer.play 2 (Player.mk [[⟨.TEN, 'C', true⟩, ⟨.SEVEN, 'D', false⟩]]) (Deck.mk [faceUp .TWO])
        = Run.done (Player.mk [[⟨.TEN, 'C', true⟩, ⟨.SEVEN, 'D', true⟩]], Deck.mk [faceUp .TWO]) ∧
      playGame 2
          (Deck.mk ([faceUp .TWO] ++ [⟨.KING, 'D', true⟩, ⟨.ACE, 'C', true⟩,
            ⟨.SEVEN, 'D', true⟩, ⟨.TEN, 'C', true⟩])) []
        = Run.done
            { player := Player.mk [[⟨.ACE, 'C', true⟩, ⟨.KING, 'D', true⟩]]
              dealer := Player.mk [[⟨.TEN, 'C', true⟩, ⟨.SEVEN, 'D', true⟩]]
              deck := Deck.mk [faceUp .TWO]
              input := []
              log := [Event.blackjack, Event.wins 0] } :=
  ⟨by decide, by decide,
    match playGame_natural_settled [faceUp .TWO] ⟨.TEN, 'C', true⟩ ⟨.SEVEN, 'D', true⟩ .ACE .KING
      'C' 'D' true true [] 0 (Player.mk [[⟨.TEN, 'C', true⟩, ⟨.SEVEN, 'D', true⟩]])
      (Deck.mk [faceUp .TWO]) (by decide) (by decide) with
    | ⟨shown, hshown, hgame⟩ => by
      have hs : shown = Player.mk [[⟨.TEN, 'C', true⟩, ⟨.SEVEN, 'D', true⟩]] := by
        have hr : Dealer.revealCards (Player.mk [[⟨.TEN, 'C', true⟩, ⟨.SEVEN, 'D', true⟩]])
            = some (Player.mk [[⟨.TEN, 'C', true⟩, ⟨.SEVEN, 'D', true⟩]]) := by decide
        rw [hr] at hshown
        exact (Option.some.inj hshown).symm
      subst hs
      exact hgame⟩

/-! ## The split phase -/

theorem Deck.drawCard_of_ne_nil (deck : Deck) (reveal : Bool) (hne : deck.cards ≠ []) :
    deck.drawCard reveal
      = some ({ deck.cards.getLast hne with revealed := reveal }, Deck.mk deck.cards.dropLast) := by
  unfold Deck.drawCard
  rw [List.getLast?_eq_getLast _ hne]

theorem Player.splitHand_of_canSplit (p : Player) (deck : Deck) (handIndex : Int)
    (p1 : Player) (deck1 : Deck) (hsplit : p.canSplit handIndex = true)
    (h : p.splitHand deck handIndex = some (p1, deck1)) :
    p1.hands.length = p.hands.length + 1 ∧ deck1.cards.length + 2 = deck.cards.length := by
  rcases Player.splitHand_some p deck handIndex p1 deck1 h with
    ⟨rfl, rfl⟩ | ⟨c0, c1, card1, card2, deckMid, _, _, hd1, hd2, rfl⟩
  · exfalso
    have hlt : toSizeT handIndex < p1.hands.length := by
      unfold Player.canSplit at hsplit
      by_contra hn
      rw [dif_neg hn] at hsplit
      exact Bool.false_ne_true hsplit
    obtain ⟨c0, c1, hc⟩ := Player.canSplit_hand p1 handIndex _
      (List.getElem?_eq_getElem hlt) hsplit
    unfold Player.splitHand at h
    rw [dif_pos hlt] at h
    simp only [hsplit, Bool.not_true, Bool.false_eq_true, if_false, List.get_eq_getElem,
      hc] at h
    cases hd1 : deck1.drawCard true with
    | none => simp [hd1] at h
    | some r1 =>
      obtain ⟨k1, dm⟩ := r1
      cases hd2 : dm.drawCard true with
      | none => simp [hd1, hd2] at h
      | some r2 =>
        obtain ⟨k2, d2⟩ := r2
        simp [hd1, hd2] at h
        have hlen := congrArg (fun q : Player => q.hands.length) h.1
        simp at hlen
  · obtain ⟨e1, n1, _⟩ := Deck.drawCard_result deck true card1 deckMid hd1
    obtain ⟨e2, n2, _⟩ := Deck.drawCard_result deckMid true card2 deck1 hd2
    refine ⟨by simp, ?_⟩
    rw [e2, e1]
    have hl1 : deck.cards.length ≠ 0 := fun h0 => n1 (List.length_eq_zero.1 h0)
    have hl2 : deckMid.cards.length ≠ 0 := fun h0 => n2 (List.length_eq_zero.1 h0)
    rw [e1] at hl2
    simp only [List.length_dropLast] at hl2 ⊢
    omega

theorem Player.splitHand_defined (p : Player) (deck : Deck) (handIndex : Int)
    (hsplit : p.canSplit handIndex = true) (hdeck : 2 ≤ deck.cards.length) :
    ∃ (p1 : Player) (deck1 : Deck), p.splitHand deck handIndex = some (p1, deck1) := by
  have hlt : toSizeT handIndex < p.hands.length := by
    unfold Player.canSplit at hsplit
    by_contra hn
    rw [dif_neg hn] at hsplit
    exact Bool.false_ne_true hsplit
  obtain ⟨c0, c1, hc⟩ := Player.canSplit_hand p handIndex _
    (List.getElem?_eq_getElem hlt) hsplit
  have hne1 : deck.cards ≠ [] := by
    intro h0
    rw [h0] at hdeck
    simp at hdeck
  have hne2 : (Deck.mk deck.cards.dropLast).cards ≠ [] := by
    intro h0
    have := congrArg List.length h0
    simp only [List.length_dropLast, List.length_nil] at this
    omega
  unfold Player.splitHand
  rw [dif_pos hlt]
  simp only [hsplit, Bool.not_true, Bool.false_eq_true, if_false, List.get_eq_getElem, hc,
    Deck.drawCard_of_ne_nil deck true hne1, Deck.drawCard_of_ne_nil _ true hne2]
  exact ⟨_, _, rfl⟩

/-- What the prompt loop of `splitPair` returns: either nothing changed, or
`splitHand` ran and the flag is set; the characters it read are a prefix of
the input. -/
theorem splitPairPrompt_some (player : Player) (i : Int) (deck : Deck) (flag : Bool)
    (input : List Char) (player1 : Player) (deck1 : Deck) (flag1 : Bool) (rest : List Char)
    (h : splitPairPrompt player i deck flag input = some (player1, deck1, flag1, rest)) :
    (∃ consumed : List Char, input = consumed ++ rest ∧ consumed ≠ []) ∧
    ((player1 = player ∧ deck1 = deck ∧ flag1 = flag) ∨
      (player.splitHand deck i = some (player1, deck1) ∧ flag1 = true)) := by
  induction input with
  | nil => simp [splitPairPrompt] at h
  | cons c more ih =>
    unfold splitPairPrompt at h
    by_cases hy : c = 'y'
    · simp only [hy, if_true] at h
      cases hs : player.splitHand deck i with
      | none => simp [hs] at h
      | some r =>
        obtain ⟨q, d⟩ := r
        simp only [hs, Option.some.injEq, Prod.mk.injEq] at h
        obtain ⟨rfl, rfl, rfl, rfl⟩ := h
        exact ⟨⟨[c], by simp, by simp⟩, Or.inr ⟨rfl, rfl⟩⟩
    · by_cases hn : c = 'n'
      · simp only [hy, if_false, hn, if_true, Option.some.injEq, Prod.mk.injEq] at h
        obtain ⟨rfl, rfl, rfl, rfl⟩ := h
        exact ⟨⟨[c], by simp, by simp⟩, Or.inl ⟨rfl, rfl, rfl⟩⟩
      · simp only [hy, if_false, hn] at h
        obtain ⟨⟨consumed, hc, _⟩, hres⟩ := ih h
        exact ⟨⟨c :: consumed, by simp [hc], by simp⟩, hres⟩

/-- What a step of the scan that goes on has done: the index moved on by one;
a prompt was written only for a hand that passes `canSplit` while fewer than 4
hands exist; the number of hands grew by at most one and not beyond 4. -/
theorem splitScanStep_again (s next : Nat × Bool × Table)
    (h : splitScanStep s = LoopStep.again next) :
    next.1 = s.1 + 1 ∧
    (next.2.2.log ≠ s.2.2.log →
      s.2.2.player.canSplit s.1 = true ∧ s.2.2.player.hands.length < 4) ∧
    s.2.2.player.hands.length ≤ next.2.2.player.hands.length ∧
    next.2.2.player.hands.length ≤ s.2.2.player.hands.length + 1 ∧
    (s.2.2.player.hands.length ≤ 4 → next.2.2.player.hands.length ≤ 4) := by
  obtain ⟨i, flag, t⟩ := s
  unfold splitScanStep at h
  simp only at h ⊢
  split at h
  · cases hp : splitPair t.player i t.deck flag t.input with
    | none => simp [hp] at h
    | some r =>
      obtain ⟨p1, d1, f1, rest⟩ := r
      simp only [hp, LoopStep.again.injEq] at h
      subst h
      simp only
      unfold splitPair at hp
      by_cases hcond : (t.player.canSplit i && decide (t.player.hands.length < 4)) = true
      · rw [if_pos hcond] at hp
        simp only [Bool.and_eq_true, decide_eq_true_eq] at hcond
        obtain ⟨_, hres⟩ := splitPairPrompt_some _ _ _ _ _ _ _ _ _ hp
        refine ⟨trivial, fun _ => hcond, ?_⟩
        rcases hres with ⟨rfl, _, _⟩ | ⟨hs, _⟩
        · exact ⟨le_refl _, Nat.le_succ _, fun h4 => h4⟩
        · have hl := (Player.splitHand_of_canSplit _ _ _ _ _ hcond.1 hs).1
          have h4 := hcond.2
          exact ⟨by omega, by omega, fun _ => by omega⟩
      · rw [if_neg hcond] at hp
        simp only [Option.some.injEq, Prod.mk.injEq] at hp
        obtain ⟨rfl, rfl, rfl, rfl⟩ := hp
        refine ⟨trivial, fun hlog => ?_, le_refl _, Nat.le_succ _, fun h4 => h4⟩
        exact absurd (by simp) hlog
  · simp at h

/-- One step of the scan when decisions and cards are at hand. -/
theorem splitScanStep_defined (i : Nat) (flag : Bool) (t : Table)
    (hi : i < t.player.hands.length) (hcap : t.player.hands.length ≤ 4)
    (hyn : decisionsOnly t.input) (hin : t.input ≠ [])
    (hdeck : 2 * (4 - t.player.hands.length) ≤ t.deck.cards.length) :
    ∃ (flag1 : Bool) (t1 : Table) (consumed : List Char),
      splitScanStep (i, flag, t) = LoopStep.again (i + 1, flag1, t1) ∧
      t.input = consumed ++ t1.input ∧ consumed.length ≤ 1 ∧
      t1.player.hands.length = t.player.hands.length + consumed.count 'y' ∧
      t1.player.hands.length ≤ 4 ∧
      2 * (4 - t1.player.hands.length) ≤ t1.deck.cards.length ∧
      flag1 = (flag || decide (0 < consumed.count 'y')) ∧
      t1.log = t.log ++ List.replicate consumed.length (Event.splitPrompt i) := by
  by_cases hcond : (t.player.canSplit i && decide (t.player.hands.length < 4)) = true
  · obtain ⟨c, rest, hinput⟩ := List.exists_cons_of_ne_nil hin
    have hc : c = 'y' ∨ c = 'n' := hyn c (by rw [hinput]; simp)
    have hcond' := hcond
    simp only [Bool.and_eq_true, decide_eq_true_eq] at hcond'
    rcases hc with rfl | rfl
    · obtain ⟨p1, d1, hs⟩ := Player.splitHand_defined t.player t.deck i hcond'.1 (by omega)
      obtain ⟨hl, hd⟩ := Player.splitHand_of_canSplit _ _ _ _ _ hcond'.1 hs
      refine ⟨true, Table.mk p1 d1 rest (t.log ++ [Event.splitPrompt i]), ['y'], ?_, by simp [hinput],
        by simp, by simp [hl], by simp only; omega, by simp only; omega, by simp, by simp⟩
      simp [splitScanStep, hi, splitPair, hcond, hinput, splitPairPrompt, hs]
    · refine ⟨flag, Table.mk t.player t.deck rest (t.log ++ [Event.splitPrompt i]), ['n'], ?_,
        by simp [hinput], by simp, by simp, hcap, hdeck, by simp, by simp⟩
      simp [splitScanStep, hi, splitPair, hcond, hinput, splitPairPrompt]
  · refine ⟨flag, t, [], ?_, by simp, by simp, by simp, hcap, hdeck, by simp, by simp⟩
    simp [splitScanStep, hi, splitPair, hcond, Table.log_append_nil]
theorem decisionsOnly_of_append (consumed rest : List Char)
    (h : decisionsOnly (consumed ++ rest)) : decisionsOnly rest :=
  fun c hc => h c (List.mem_append_right consumed hc)

/-- With decisions and cards at hand a scan runs to its end; `consumed` are
the decisions it read and `prompts` the lines it wrote. -/
theorem splitScan_defined (fuel : Nat) :
    ∀ (i : Nat) (flag : Bool) (t : Table),
      t.player.hands.length ≤ 4 → decisionsOnly t.input → 4 - i ≤ t.input.length →
      2 * (4 - t.player.hands.length) ≤ t.deck.cards.length → 4 - i < fuel →
      ∃ (i1 : Nat) (flag1 : Bool) (t1 : Table) (consumed : List Char) (prompts : List Event),
        runLoop splitScanStep fuel (i, flag, t) = Run.done (i1, flag1, t1) ∧
        t.input = consumed ++ t1.input ∧ consumed.length ≤ 4 - i ∧
        t1.player.hands.length = t.player.hands.length + consumed.count 'y' ∧
        t1.player.hands.length ≤ 4 ∧
        2 * (4 - t1.player.hands.length) ≤ t1.deck.cards.length ∧
        flag1 = (flag || decide (0 < consumed.count 'y')) ∧
        t1.log = t.log ++ prompts ∧ prompts.length = consumed.length := by
  induction fuel with
  | zero => intro i flag t _ _ _ _ hf; omega
  | succ n ih =>
    intro i flag t hcap hyn hin hdeck hf
    by_cases hi : i < t.player.hands.length
    · have hne : t.input ≠ [] := by
        intro h0
        rw [h0] at hin
        simp at hin
        omega
      obtain ⟨flag1, t1, consumed, hstep, hinput, hcl, hlen, hcap1, hdeck1, hflag, hlog⟩ :=
        splitScanStep_defined i flag t hi hcap hyn hne hdeck
      have hyn1 : decisionsOnly t1.input :=
        decisionsOnly_of_append consumed t1.input (hinput ▸ hyn)
      have hlenin : t.input.length = consumed.length + t1.input.length := by
        rw [hinput]; simp
      obtain ⟨i2, flag2, t2, consumed2, prompts2, hrun, hinput2, hcl2, hlen2, hcap2, hdeck2,
          hflag2, hlog2, hpl2⟩ :=
        ih (i + 1) flag1 t1 hcap1 hyn1 (by omega) hdeck1 (by omega)
      refine ⟨i2, flag2, t2, consumed ++ consumed2,
        List.replicate consumed.length (Event.splitPrompt i) ++ prompts2, ?_, ?_, ?_, ?_, hcap2,
        hdeck2, ?_, ?_, ?_⟩
      · simp only [runLoop, hstep, hrun]
      · rw [hinput, hinput2, List.append_assoc]
      · simp only [List.length_append]; omega
      · rw [hlen2, hlen, List.count_append]; omega
      · rw [hflag2, hflag, List.count_append]
        cases flag <;> simp
      · rw [hlog2, hlog, List.append_assoc]
      · simp [hpl2]
    · refine ⟨i, flag, t, [], [], ?_, by simp, by simp, by simp, hcap, hdeck, by simp, by simp,
        rfl⟩
      simp [runLoop, splitScanStep, hi]

theorem splitPhaseLoop_defined (fuel : Nat) (hfuel : 5 ≤ fuel) :
    ∀ (n : Nat) (t : Table),
      t.player.hands.length ≤ 4 → decisionsOnly t.input →
      4 * (5 - t.player.hands.length) ≤ t.input.length →
      2 * (4 - t.player.hands.length) ≤ t.deck.cards.length →
      (4 - t.player.hands.length) + 2 ≤ n →
      ∃ (t1 : Table) (consumed : List Char) (prompts : List Event),
        splitPhaseLoop fuel n true t = Run.done t1 ∧
        t.input = consumed ++ t1.input ∧
        t1.player.hands.length = t.player.hands.length + consumed.count 'y' ∧
        t1.player.hands.length ≤ 4 ∧
        t1.log = t.log ++ prompts ∧ prompts.length = consumed.length := by
  intro n
  induction n with
  | zero => intro t _ _ _ _ hn; omega
  | succ m ih =>
    intro t hcap hyn hin hdeck hn
    obtain ⟨i1, flag1, t1, consumed, prompts, hrun, hinput, hcl, hlen, hcap1, hdeck1, hflag,
        hlog, hpl⟩ :=
      splitScan_defined fuel 0 false t hcap hyn (by omega) hdeck (by omega)
    have hscan : splitScan fuel t = Run.done (flag1, t1) := by
      simp only [splitScan, hrun]
    have hyn1 : decisionsOnly t1.input :=
      decisionsOnly_of_append consumed t1.input (hinput ▸ hyn)
    have hlenin : t.input.length = consumed.length + t1.input.length := by
      rw [hinput]; simp
    by_cases hcount : consumed.count 'y' = 0
    · have hf : flag1 = false := by rw [hflag]; simp [hcount]
      obtain ⟨k, rfl⟩ : ∃ k, m = k + 1 := ⟨m - 1, by omega⟩
      refine ⟨t1, consumed, prompts, ?_, hinput, hlen, hcap1, hlog, hpl⟩
      simp only [splitPhaseLoop, if_true, hscan, hf, Bool.false_eq_true, if_false]
    · have hf : flag1 = true := by
        rw [hflag]
        simp only [Bool.false_or, decide_eq_true_eq]
        exact Nat.pos_of_ne_zero hcount
      obtain ⟨t2, consumed2, prompts2, hloop, hinput2, hlen2, hcap2, hlog2, hpl2⟩ :=
        ih t1 hcap1 hyn1 (by omega) hdeck1 (by omega)
      refine ⟨t2, consumed ++ consumed2, prompts ++ prompts2, ?_, ?_, ?_, hcap2, ?_, ?_⟩
      · simp only [splitPhaseLoop, if_true, hscan, hf, hloop]
      · rw [hinput, hinput2, List.append_assoc]
      · rw [hlen2, hlen, List.count_append]; omega
      · rw [hlog2, hlog, List.append_assoc]
      · simp [hpl, hpl2]
theorem Player.canSplit_pair (p : Player) (handIndex : Int)
    (hsplit : p.canSplit handIndex = true) :
    ∃ c0 c1 : Card, p.hands[toSizeT handIndex]? = some [c0, c1] ∧
      c0.getPoints = c1.getPoints := by
  have hlt : toSizeT handIndex < p.hands.length := by
    unfold Player.canSplit at hsplit
    by_contra hn
    rw [dif_neg hn] at hsplit
    exact Bool.false_ne_true hsplit
  have hhand := List.getElem?_eq_getElem hlt
  obtain ⟨c0, c1, hc⟩ := Player.canSplit_hand p handIndex _ hhand hsplit
  refine ⟨c0, c1, by rw [hhand, hc], ?_⟩
  unfold Player.canSplit at hsplit
  rw [dif_pos hlt] at hsplit
  simp only [List.get_eq_getElem, hc, decide_eq_true_eq] at hsplit
  exact hsplit

theorem Player.drawCard_hands_length (p : Player) (deck : Deck) (handIndex : Int)
    (reveal : Bool) (p1 : Player) (deck1 : Deck)
    (h : p.drawCard deck handIndex reveal = some (p1, deck1)) :
    p1.hands.length = p.hands.length := by
  rcases Player.drawCard_some p deck handIndex reveal p1 deck1 h with
    ⟨h1, _⟩ | ⟨hand, card, _, _, _, h1⟩
  · rw [h1]
  · rw [h1]
    simp

/-- C17: the split phase of `playGame`.  The player enters it with one hand.
At every step of a scan the hand count grows by at most one and stays within
4, and a split is offered only while fewer than 4 hands exist and only for a
hand of exactly 2 cards of equal point value.  A scan in which no hand is
split ends the phase, any other scan is followed by a new scan.  With y/n
decisions and cards at hand the phase returns: the hand count is at most 4
and grew by the number of accepted splits, which is at most 3. -/
theorem splitPhase_bounded (t : Table) (hone : 1 ≤ t.player.hands.length)
    (hcap : t.player.hands.length ≤ 4) (hyn : decisionsOnly t.input)
    (hin : 16 ≤ t.input.length) (hdeck : 6 ≤ t.deck.cards.length) :
    (∀ (deck deck1 deck2 : Deck) (p1 p2 : Player),
        Player.new.drawCard deck 0 true = some (p1, deck1) →
        p1.drawCard deck1 0 true = some (p2, deck2) → p2.hands.length = 1) ∧
    (∀ s next : Nat × Bool × Table, splitScanStep s = LoopStep.again next →
        (s.2.2.player.hands.length ≤ 4 → next.2.2.player.hands.length ≤ 4) ∧
        s.2.2.player.hands.length ≤ next.2.2.player.hands.length ∧
        next.2.2.player.hands.length ≤ s.2.2.player.hands.length + 1 ∧
        (next.2.2.log ≠ s.2.2.log →
          s.2.2.player.hands.length < 4 ∧
          ∃ c0 c1 : Card, s.2.2.player.hands[toSizeT (s.1 : Int)]? = some [c0, c1] ∧
            c0.getPoints = c1.getPoints)) ∧
    (∀ (fuel n : Nat) (u : Table), 5 ≤ fuel → u.player.hands.length ≤ 4 →
        decisionsOnly u.input → 4 ≤ u.input.length →
        2 * (4 - u.player.hands.length) ≤ u.deck.cards.length →
        ∃ (flag1 : Bool) (u1 : Table),
          splitScan fuel u = Run.done (flag1, u1) ∧
          (u1.player.hands.length = u.player.hands.length →
            splitPhaseLoop fuel (n + 2) true u = Run.done u1) ∧
          (u1.player.hands.length ≠ u.player.hands.length →
            splitPhaseLoop fuel (n + 2) true u = splitPhaseLoop fuel (n + 1) true u1)) ∧
    (∀ fuel : Nat, 5 ≤ fuel →
        ∃ (final : Table) (consumed : List Char) (prompts : List Event),
          splitPhase fuel t = Run.done final ∧
          t.input = consumed ++ final.input ∧
          final.player.hands.length = t.player.hands.length + consumed.count 'y' ∧
          final.player.hands.length ≤ 4 ∧ consumed.count 'y' ≤ 3 ∧
          final.log = t.log ++ prompts ∧ prompts.length = consumed.length) := by
  refine ⟨?_, ?_, ?_, ?_⟩
  · intro deck deck1 deck2 p1 p2 h1 h2
    rw [Player.drawCard_hands_length _ _ _ _ _ _ h2, Player.drawCard_hands_length _ _ _ _ _ _ h1]
    rfl
  · intro s next h
    obtain ⟨_, hoffer, hmono, hgrow, hcap4⟩ := splitScanStep_again s next h
    refine ⟨hcap4, hmono, hgrow, fun hlog => ?_⟩
    obtain ⟨hsplit, hlt⟩ := hoffer hlog
    exact ⟨hlt, Player.canSplit_pair _ _ hsplit⟩
  · intro fuel n u hfuel hucap huyn huin hudeck
    obtain ⟨i1, flag1, u1, consumed, prompts, hrun, hinput, hcl, hlen, hcap1, hdeck1, hflag,
        hlog, hpl⟩ :=
      splitScan_defined fuel 0 false u hucap huyn (by omega) hudeck (by omega)
    have hscan : splitScan fuel u = Run.done (flag1, u1) := by
      simp only [splitScan, hrun]
    refine ⟨flag1, u1, hscan, ?_, ?_⟩
    · intro hsame
      have hf : flag1 = false := by
        rw [hflag]
        have : consumed.count 'y' = 0 := by omega
        simp [this]
      simp only [splitPhaseLoop, if_true, hscan, hf, Bool.false_eq_true, if_false]
    · intro hdiff
      have hf : flag1 = true := by
        rw [hflag]
        simp only [Bool.false_or, decide_eq_true_eq]
        omega
      rw [hf] at hscan
      conv_lhs => unfold splitPhaseLoop
      simp only [if_true, hscan]
  · intro fuel hfuel
    obtain ⟨final, consumed, prompts, hloop, hinput, hlen, hcap1, hlog, hpl⟩ :=
      splitPhaseLoop_defined fuel hfuel fuel t hcap hyn (by omega) (by omega) (by omega)
    exact ⟨final, consumed, prompts, hloop, hinput, hlen, hcap1, by omega, hlog, hpl⟩

theorem splitPhase_bounded_witness :
    1 ≤ eagerTable.player.hands.length ∧ eagerTable.player.hands.length ≤ 4 ∧
      decisionsOnly eagerTable.input ∧ 16 ≤ eagerTable.input.length ∧
      6 ≤ eagerTable.deck.cards.length ∧
      (match splitPhase 5 eagerTable with
        | Run.done final => decide (final.player.hands.length ≤ 4)
        | _ => false) = true :=
  have hyn : decisionsOnly eagerTable.input := by
    unfold decisionsOnly
    decide
  ⟨by decide, by decide, hyn, by decide, by decide,
    match (splitPhase_bounded eagerTable (by decide) (by decide) hyn (by decide)
      (by decide)).2.2.2 5 (le_refl 5) with
    | ⟨_, _, _, hdone, _, _, hcap, _⟩ => by
      rw [hdone]
      exact decide_eq_true hcap⟩

/-! ## The player's turn after the end of the input -/

/-- The iteration count of `hitAtEnd` does not matter once it exceeds the
number of cards the hand can still take; 6 iterations are always enough. -/
theorem hitAtEnd_count (i : Nat) :
    ∀ (k k' : Nat) (player : Player) (deck : Deck) (log : List Event),
      roomLeft player i < k → roomLeft player i < k' →
      hitAtEnd i k player deck log = hitAtEnd i k' player deck log := by
  intro k
  induction k with
  | zero => intro k' player deck log h; omega
  | succ n ih =>
    intro k' player deck log hk hk'
    obtain ⟨m, rfl⟩ : ∃ m, k' = m + 1 := ⟨k' - 1, by omega⟩
    simp only [hitAtEnd]
    cases hd : player.drawCard deck i with
    | none => rfl
    | some r =>
      obtain ⟨p1, d1⟩ := r
      simp only
      by_cases hbust : p1.getPoints i > 21
      · simp only [hbust, if_true]
      · by_cases hsame : p1 = player
        · simp only [hbust, if_false, hsame, if_true]
        · simp only [hbust, if_false, hsame]
          rcases Player.drawCard_some player deck i true p1 d1 hd with
            ⟨h1, _⟩ | ⟨hand, card, hhand, hlen, _, h1⟩
          · exact absurd h1 hsame
          · have hlt := (List.getElem?_eq_some_iff.1 hhand).1
            have hroom : roomLeft player i = 5 - hand.length := by
              simp only [roomLeft, hhand]
            have hroom1 : roomLeft p1 i = 5 - (hand.length + 1) := by
              simp only [roomLeft, h1, List.getElem?_set, hlt, if_true]
              simp
            exact ih m p1 d1 _ (by omega) (by omega)

theorem roomLeft_le (p : Player) (i : Nat) : roomLeft p i ≤ 5 := by
  unfold roomLeft
  split <;> omega

theorem hitAtEnd_six (i k : Nat) (player : Player) (deck : Deck) (log : List Event) :
    hitAtEnd i (k + 6) player deck log = hitAtEnd i 6 player deck log :=
  hitAtEnd_count i (k + 6) 6 player deck log
    (by have := roomLeft_le player i; omega) (by have := roomLeft_le player i; omega)

/-! ## Cards drawn in a round -/

theorem sum_length_set (hands : List (List Card)) (n : Nat) (hand new : List Card)
    (h : hands[n]? = some hand) :
    ((hands.set n new).map List.length).sum + hand.length
      = (hands.map List.length).sum + new.length := by
  induction hands generalizing n with
  | nil => simp at h
  | cons first rest ih =>
    cases n with
    | zero =>
      simp only [List.getElem?_cons_zero, Option.some.injEq] at h
      subst h
      simp only [List.set_cons_zero, List.map_cons, List.sum_cons]
      omega
    | succ m =>
      simp only [List.getElem?_cons_succ] at h
      have := ih m h
      simp only [List.set_cons_succ, List.map_cons, List.sum_cons]
      omega

theorem Deck.drawCard_length (deck : Deck) (reveal : Bool) (card : Card) (deck1 : Deck)
    (h : deck.drawCard reveal = some (card, deck1)) :
    deck1.cards.length + 1 = deck.cards.length := by
  obtain ⟨e, hne, _⟩ := Deck.drawCard_result deck reveal card deck1 h
  have hl : deck.cards.length ≠ 0 := fun h0 => hne (List.length_eq_zero.1 h0)
  rw [e, List.length_dropLast]
  omega

theorem Player.drawCard_held (p : Player) (deck : Deck) (handIndex : Int) (reveal : Bool)
    (p1 : Player) (deck1 : Deck) (h : p.drawCard deck handIndex reveal = some (p1, deck1)) :
    deck1.cards.length + cardsHeld p1 = deck.cards.length + cardsHeld p := by
  rcases Player.drawCard_some p deck handIndex reveal p1 deck1 h with
    ⟨rfl, rfl⟩ | ⟨hand, card, hhand, _, hd, rfl⟩
  · rfl
  · have hl := Deck.drawCard_length deck reveal card deck1 hd
    have hs := sum_length_set p.hands (toSizeT handIndex) hand (hand ++ [card]) hhand
    simp only [List.length_append, List.length_singleton] at hs
    simp only [cardsHeld]
    omega

theorem Player.splitHand_held (p : Player) (deck : Deck) (handIndex : Int)
    (p1 : Player) (deck1 : Deck) (h : p.splitHand deck handIndex = some (p1, deck1)) :
    deck1.cards.length + cardsHeld p1 = deck.cards.length + cardsHeld p := by
  rcases Player.splitHand_some p deck handIndex p1 deck1 h with
    ⟨rfl, rfl⟩ | ⟨c0, c1, card1, card2, deckMid, hhand, _, hd1, hd2, rfl⟩
  · rfl
  · have hl1 := Deck.drawCard_length deck true card1 deckMid hd1
    have hl2 := Deck.drawCard_length deckMid true card2 deck1 hd2
    have hs := sum_length_set p.hands (toSizeT handIndex) [c0, c1] [c0, card1] hhand
    simp only [List.length_cons, List.length_nil] at hs
    simp only [cardsHeld, List.map_append, List.sum_append, List.map_cons, List.map_nil,
      List.sum_cons, List.sum_nil, List.length_cons, List.length_nil]
    omega

theorem Player.splitHand_bounded (p : Player) (deck : Deck) (handIndex : Int)
    (p1 : Player) (deck1 : Deck) (hinv : handsBounded p)
    (h : p.splitHand deck handIndex = some (p1, deck1)) : handsBounded p1 := by
  rcases Player.splitHand_some p deck handIndex p1 deck1 h with
    ⟨rfl, _⟩ | ⟨c0, c1, card1, card2, deckMid, _, _, _, _, rfl⟩
  · exact hinv
  · intro hand hmem
    rcases List.mem_append.1 hmem with hset | hnew
    · rcases List.mem_or_eq_of_mem_set hset with hold | rfl
      · exact hinv hand hold
      · simp
    · rw [List.mem_singleton.1 hnew]
      simp

theorem cardsHeld_le (p : Player) (hinv : handsBounded p) :
    cardsHeld p ≤ 5 * p.hands.length := by
  obtain ⟨hands⟩ := p
  unfold handsBounded at hinv
  simp only [cardsHeld] at hinv ⊢
  induction hands with
  | nil => simp
  | cons hand rest ih =>
    have h1 := hinv hand (by simp)
    have h2 := ih (fun x hx => hinv x (List.mem_cons_of_mem _ hx))
    simp only [List.map_cons, List.sum_cons, List.length_cons]
    omega

theorem Player.drawCard_roundInv (total : Nat) (p : Player) (deck : Deck) (handIndex : Int)
    (reveal : Bool) (p1 : Player) (deck1 : Deck) (hinv : roundInv total p deck)
    (h : p.drawCard deck handIndex reveal = some (p1, deck1)) : roundInv total p1 deck1 := by
  obtain ⟨hsum, hb, hlen⟩ := hinv
  refine ⟨?_, Player.drawCard_bounded p deck handIndex reveal p1 deck1 hb h, ?_⟩
  · rw [Player.drawCard_held p deck handIndex reveal p1 deck1 h]
    exact hsum
  · rw [Player.drawCard_hands_length p deck handIndex reveal p1 deck1 h]
    exact hlen
theorem splitPair_roundInv (total : Nat) (player : Player) (i : Int) (deck : Deck) (flag : Bool)
    (input : List Char) (player1 : Player) (deck1 : Deck) (flag1 : Bool) (rest : List Char)
    (hinv : roundInv total player deck)
    (h : splitPair player i deck flag input = some (player1, deck1, flag1, rest)) :
    roundInv total player1 deck1 := by
  unfold splitPair at h
  by_cases hcond : (player.canSplit i && decide (player.hands.length < 4)) = true
  · rw [if_pos hcond] at h
    simp only [Bool.and_eq_true, decide_eq_true_eq] at hcond
    obtain ⟨_, hres⟩ := splitPairPrompt_some _ _ _ _ _ _ _ _ _ h
    rcases hres with ⟨rfl, rfl, _⟩ | ⟨hs, _⟩
    · exact hinv
    · obtain ⟨hsum, hb, _⟩ := hinv
      refine ⟨?_, Player.splitHand_bounded _ _ _ _ _ hb hs, ?_⟩
      · rw [Player.splitHand_held _ _ _ _ _ hs]
        exact hsum
      · have hl := (Player.splitHand_of_canSplit _ _ _ _ _ hcond.1 hs).1
        have h4 := hcond.2
        omega
  · rw [if_neg hcond] at h
    simp only [Option.some.injEq, Prod.mk.injEq] at h
    obtain ⟨rfl, rfl, _, _⟩ := h
    exact hinv

theorem splitScanStep_roundInv (total : Nat) (s next : Nat × Bool × Table)
    (hinv : roundInv total s.2.2.player s.2.2.deck)
    (h : splitScanStep s = LoopStep.again next) :
    roundInv total next.2.2.player next.2.2.deck := by
  unfold splitScanStep at h
  split at h
  · cases hp : splitPair s.2.2.player s.1 s.2.2.deck s.2.1 s.2.2.input with
    | none => simp [hp] at h
    | some r =>
      obtain ⟨p1, d1, f1, rest⟩ := r
      simp only [hp, LoopStep.again.injEq] at h
      subst h
      exact splitPair_roundInv total _ _ _ _ _ _ _ _ _ hinv hp
  · simp at h

theorem splitScanLoop_roundInv (total : Nat) (fuel : Nat) :
    ∀ (s final : Nat × Bool × Table), roundInv total s.2.2.player s.2.2.deck →
      runLoop splitScanStep fuel s = Run.done final →
      roundInv total final.2.2.player final.2.2.deck := by
  induction fuel with
  | zero => intro s final _ h; simp [runLoop] at h
  | succ n ih =>
    intro s final hinv h
    unfold runLoop at h
    cases hs : splitScanStep s with
    | exit =>
      simp only [hs, Run.done.injEq] at h
      subst h
      exact hinv
    | undefined => simp [hs] at h
    | again next =>
      simp only [hs] at h
      exact ih next final (splitScanStep_roundInv total s next hinv hs) h

theorem splitScan_roundInv (total fuel : Nat) (t : Table) (flag1 : Bool) (t1 : Table)
    (hinv : roundInv total t.player t.deck) (h : splitScan fuel t = Run.done (flag1, t1)) :
    roundInv total t1.player t1.deck := by
  unfold splitScan at h
  cases hr : runLoop splitScanStep fuel (0, false, t) with
  | done s =>
    simp only [hr, Run.done.injEq, Prod.mk.injEq] at h
    have := splitScanLoop_roundInv total fuel (0, false, t) s hinv hr
    rw [← h.2]
    exact this
  | undefined => simp [hr] at h
  | unfinished => simp [hr] at h

theorem splitPhaseLoop_roundInv (total fuel : Nat) :
    ∀ (n : Nat) (flag : Bool) (t final : Table), roundInv total t.player t.deck →
      splitPhaseLoop fuel n flag t = Run.done final →
      roundInv total final.player final.deck := by
  intro n
  induction n with
  | zero => intro flag t final _ h; simp [splitPhaseLoop] at h
  | succ m ih =>
    intro flag t final hinv h
    unfold splitPhaseLoop at h
    cases flag with
    | false =>
      simp only [Bool.false_eq_true, if_false, Run.done.injEq] at h
      subst h
      exact hinv
    | true =>
      simp only [if_true] at h
      cases hs : splitScan fuel t with
      | done r =>
        obtain ⟨flag1, t1⟩ := r
        simp only [hs] at h
        exact ih flag1 t1 final (splitScan_roundInv total fuel t flag1 t1 hinv hs) h
      | undefined => simp [hs] at h
      | unfinished => simp [hs] at h

theorem hitAtEnd_roundInv (total i : Nat) :
    ∀ (k : Nat) (player : Player) (deck : Deck) (log : List Event) (t : Table),
      roundInv total player deck → hitAtEnd i k player deck log = some t →
      roundInv total t.player t.deck := by
  intro k
  induction k with
  | zero => intro player deck log t _ h; simp [hitAtEnd] at h
  | succ n ih =>
    intro player deck log t hinv h
    unfold hitAtEnd at h
    cases hd : player.drawCard deck i with
    | none => simp [hd] at h
    | some r =>
      obtain ⟨p1, d1⟩ := r
      have hinv1 := Player.drawCard_roundInv total player deck i true p1 d1 hinv hd
      simp only [hd] at h
      by_cases hbust : p1.getPoints i > 21
      · rw [if_pos hbust] at h
        simp only [Option.some.injEq] at h
        subst h
        exact hinv1
      · by_cases hsame : p1 = player
        · rw [if_neg hbust, if_pos hsame] at h
          exact absurd h (by simp)
        · rw [if_neg hbust, if_neg hsame] at h
          exact ih p1 d1 _ t hinv1 h

theorem hitLoop_roundInv (total i : Nat) :
    ∀ (input : List Char) (choice : Option Char) (player : Player) (deck : Deck)
      (log : List Event) (t : Table) (choice1 : Char),
      roundInv total player deck → hitLoop i input choice player deck log = some (t, choice1) →
      roundInv total t.player t.deck := by
  intro input
  induction input with
  | nil =>
    intro choice player deck log t choice1 hinv h
    cases choice with
    | none => simp [hitLoop] at h
    | some c =>
      unfold hitLoop at h
      by_cases hy : c = 'y'
      · rw [if_pos hy] at h
        cases he : hitAtEnd i 6 player deck log with
        | none => simp [he] at h
        | some t0 =>
          simp only [he, Option.some.injEq, Prod.mk.injEq] at h
          rw [← h.1]
          exact hitAtEnd_roundInv total i 6 player deck log t0 hinv he
      · by_cases hn : c = 'n'
        · rw [if_neg hy, if_pos hn] at h
          simp only [Option.some.injEq, Prod.mk.injEq] at h
          rw [← h.1]
          exact hinv
        · rw [if_neg hy, if_neg hn] at h
          exact absurd h (by simp)
  | cons c rest ih =>
    intro choice player deck log t choice1 hinv h
    unfold hitLoop at h
    by_cases hy : c = 'y'
    · rw [if_pos hy] at h
      cases hd : player.drawCard deck i with
      | none => simp [hd] at h
      | some r =>
        obtain ⟨p1, d1⟩ := r
        have hinv1 := Player.drawCard_roundInv total player deck i true p1 d1 hinv hd
        simp only [hd] at h
        by_cases hbust : p1.getPoints i > 21
        · rw [if_pos hbust] at h
          simp only [Option.some.injEq, Prod.mk.injEq] at h
          rw [← h.1]
          exact hinv1
        · rw [if_neg hbust] at h
          exact ih _ p1 d1 _ t choice1 hinv1 h
    · by_cases hn : c = 'n'
      · rw [if_neg hy, if_pos hn] at h
        simp only [Option.some.injEq, Prod.mk.injEq] at h
        rw [← h.1]
        exact hinv
      · rw [if_neg hy, if_neg hn] at h
        exact ih _ player deck _ t choice1 hinv h

theorem hitHands_roundInv (total : Nat) :
    ∀ (count i : Nat) (choice : Option Char) (t t1 : Table),
      roundInv total t.player t.deck → hitHands count i choice t = some t1 →
      roundInv total t1.player t1.deck := by
  intro count
  induction count with
  | zero =>
    intro i choice t t1 hinv h
    simp only [hitHands, Option.some.injEq] at h
    subst h
    exact hinv
  | succ n ih =>
    intro i choice t t1 hinv h
    unfold hitHands at h
    split at h
    · cases hl : hitLoop i t.input choice t.player t.deck t.log with
      | none => simp [hl] at h
      | some r =>
        obtain ⟨t0, c0⟩ := r
        simp only [hl] at h
        exact ih (i + 1) (some c0) t0 t1
          (hitLoop_roundInv total i _ _ _ _ _ t0 c0 hinv hl) h
    · simp only [Option.some.injEq] at h
      subst h
      exact hinv

theorem playerTurn_roundInv (total : Nat) (t t1 : Table)
    (hinv : roundInv total t.player t.deck) (h : playerTurn t = some t1) :
    roundInv total t1.player t1.deck := by
  unfold playerTurn at h
  split at h
  · simp only [Option.some.injEq] at h
    subst h
    exact hinv
  · exact hitHands_roundInv total _ 0 none t t1 hinv h

theorem Dealer.playLoop_held (fuel : Nat) :
    ∀ (s final : Player × Deck), handsBounded s.1 →
      Dealer.playLoop fuel s = Run.done final →
      final.2.cards.length + cardsHeld final.1 = s.2.cards.length + cardsHeld s.1 ∧
        handsBounded final.1 := by
  induction fuel with
  | zero => intro s final _ h; simp [Dealer.playLoop] at h
  | succ n ih =>
    intro s final hb h
    unfold Dealer.playLoop at h
    cases hs : Dealer.playStep s with
    | exit =>
      simp only [hs, Run.done.injEq] at h
      subst h
      exact ⟨rfl, hb⟩
    | undefined => simp [hs] at h
    | again next =>
      simp only [hs] at h
      have hd := Dealer.playStep_again s next hs
      have hb1 := Player.drawCard_bounded s.1 s.2 0 true next.1 next.2 hb hd
      obtain ⟨hsum, hbf⟩ := ih next final hb1 h
      exact ⟨by rw [hsum, Player.drawCard_held s.1 s.2 0 true next.1 next.2 hd], hbf⟩
set_option maxRecDepth 100000 in
theorem Deck.fill_length (rand : Nat → Nat) : (Deck.fill rand).length = 312 := by
  rw [← List.length_map (Deck.fill rand) Card.value, Deck.fill_values]
  rfl

theorem Player.drawCard_defined (p : Player) (deck : Deck) (handIndex : Int) (reveal : Bool)
    (hne : deck.cards ≠ []) : ∃ r : Player × Deck, p.drawCard deck handIndex reveal = some r := by
  unfold Player.drawCard
  split
  · simp only [List.get_eq_getElem]
    split
    · exact ⟨_, rfl⟩
    · rw [Deck.drawCard_of_ne_nil deck reveal hne]
      exact ⟨_, rfl⟩
  · exact ⟨_, rfl⟩

theorem Player.splitHand_defined_of_two (p : Player) (deck : Deck) (handIndex : Int)
    (hdeck : 2 ≤ deck.cards.length) :
    ∃ r : Player × Deck, p.splitHand deck handIndex = some r := by
  by_cases hsplit : p.canSplit handIndex = true
  · obtain ⟨p1, d1, h⟩ := Player.splitHand_defined p deck handIndex hsplit hdeck
    exact ⟨_, h⟩
  · simp only [Bool.not_eq_true] at hsplit
    unfold Player.splitHand
    split
    · simp only [hsplit, Bool.not_false, if_true]
      exact ⟨_, rfl⟩
    · exact ⟨_, rfl⟩

theorem Dealer.playLoop_defined (fuel : Nat) :
    ∀ (hand : List Card) (rest : List (List Card)) (deck : Deck),
      5 - hand.length ≤ deck.cards.length →
      Dealer.playLoop fuel (Player.mk (hand :: rest), deck) ≠ Run.undefined := by
  induction fuel with
  | zero => intro hand rest deck _ h; simp [Dealer.playLoop] at h
  | succ n ih =>
    intro hand rest deck hroom
    unfold Dealer.playLoop
    by_cases hlow : (Player.mk (hand :: rest)).getPoints 0 < 17
    · by_cases hfull : 5 ≤ hand.length
      · have hstep : Dealer.playStep (Player.mk (hand :: rest), deck)
            = LoopStep.again (Player.mk (hand :: rest), deck) := by
          have h0 : toSizeT 0 = 0 := rfl
          unfold Dealer.playStep
          rw [if_pos hlow]
          simp [Player.drawCard, h0, hfull]
        simp only [hstep]
        exact ih hand rest deck hroom
      · have hne : deck.cards ≠ [] := by
          intro h0
          rw [h0] at hroom
          simp at hroom
          omega
        obtain ⟨cards⟩ := deck
        simp only at hne hroom
        have hsplit := (List.dropLast_append_getLast hne).symm
        have hdraw := Player.drawCard_zero_concat hand rest cards.dropLast (cards.getLast hne) true
          (by omega)
        rw [← hsplit] at hdraw
        have hstep : Dealer.playStep (Player.mk (hand :: rest), Deck.mk cards)
            = LoopStep.again
                (Player.mk ((hand ++ [{ cards.getLast hne with revealed := true }]) :: rest),
                  Deck.mk cards.dropLast) := by
          unfold Dealer.playStep
          rw [if_pos hlow]
          simp only [hdraw]
        simp only [hstep]
        apply ih
        simp only [List.length_append, List.length_singleton, List.length_dropLast]
        omega
    · have hstep : Dealer.playStep (Player.mk (hand :: rest), deck) = LoopStep.exit := by
        unfold Dealer.playStep
        rw [if_neg hlow]
      simp only [hstep]
      exact fun h => by cases h

/-- A round that returns has taken at most 25 cards from the shoe. -/
theorem playGame_cards_drawn (fuel : Nat) (deck : Deck) (input : List Char) (r : Round)
    (h : playGame fuel deck input = Run.done r) :
    deck.cards.length ≤ r.deck.cards.length + 25 := by
  unfold playGame at h
  cases hdeal : Dealer.drawInitialCards Dealer.new deck with
  | none => simp [hdeal] at h
  | some r0 =>
    obtain ⟨dealer, deck1⟩ := r0
    simp only [hdeal] at h
    obtain ⟨c0, c1, more, rest, card1, card2, deckMid, hh, hd1, hd2, hdealer⟩ :=
      Dealer.drawInitialCards_some Dealer.new deck dealer deck1 hdeal
    have hl1 := Deck.drawCard_length deck true card1 deckMid hd1
    have hl2 := Deck.drawCard_length deckMid false card2 deck1 hd2
    have hmore : more = [] ∧ rest = [] := by
      simp only [Dealer.new, List.cons.injEq] at hh
      exact ⟨hh.1.2.2.symm, hh.2.symm⟩
    obtain ⟨rfl, rfl⟩ := hmore
    have hinv0 : roundInv deck1.cards.length Player.new deck1 := by
      refine ⟨by simp [cardsHeld, Player.new], ?_, by simp [Player.new]⟩
      intro hand hmem
      simp [Player.new] at hmem
      simp [hmem]
    cases hp1 : Player.new.drawCard deck1 with
    | none => simp [hp1] at h
    | some r1 =>
      obtain ⟨player1, deck2⟩ := r1
      simp only [hp1] at h
      have hinv1 := Player.drawCard_roundInv _ _ _ _ _ _ _ hinv0 hp1
      cases hp2 : player1.drawCard deck2 with
      | none => simp [hp2] at h
      | some r2 =>
        obtain ⟨player2, deck3⟩ := r2
        simp only [hp2] at h
        have hinv2 := Player.drawCard_roundInv _ _ _ _ _ _ _ hinv1 hp2
        cases hs : splitPhase fuel (Table.mk player2 deck3 input []) with
        | undefined => simp [hs] at h
        | unfinished => simp [hs] at h
        | done t =>
          simp only [hs] at h
          have hinv3 : roundInv deck1.cards.length t.player t.deck :=
            splitPhaseLoop_roundInv _ fuel fuel true _ t hinv2 hs
          cases ht : playerTurn t with
          | none => simp [ht] at h
          | some t1 =>
            simp only [ht] at h
            obtain ⟨hsum, hb, hlen⟩ := playerTurn_roundInv _ t t1 hinv3 ht
            have hheld := cardsHeld_le t1.player hb
            cases hplay : Dealer.play fuel dealer t1.deck with
            | undefined => simp [hplay] at h
            | unfinished => simp [hplay] at h
            | done rd =>
              obtain ⟨dealer1, deck4⟩ := rd
              simp only [hplay] at h
              have hrev : Dealer.revealSecond dealer
                  = some (Player.mk [[card1, { card2 with revealed := true }]]) := by
                rw [hdealer]
                rfl
              unfold Dealer.play at hplay
              rw [hrev] at hplay
              have hbd : handsBounded (Player.mk [[card1, { card2 with revealed := true }]]) := by
                intro hand hmem
                simp at hmem
                simp [hmem]
              obtain ⟨hsumd, hbd1⟩ := Dealer.playLoop_held fuel _ _ hbd hplay
              have hlend := Dealer.playLoop_hands_length fuel _ _ hplay
              have hheldd := cardsHeld_le dealer1 hbd1
              simp only [cardsHeld, List.map_cons, List.map_nil, List.sum_cons, List.sum_nil,
                List.length_cons, List.length_nil] at hsumd hlend
              cases hshow : Dealer.revealCards dealer1 with
              | none => simp [hshow] at h
              | some dealer2 =>
                simp only [hshow, Run.done.injEq] at h
                subst h
                simp only
                simp only [cardsHeld] at hheldd hheld hsum
                omega
/-- C15, as the claim states it, fails: the spec's draw fails on the empty shoe
with EmptyShoe, but the code has no such outcome.  `Deck::drawCard` takes
`cards.back()` of the empty vector without a test, and so do
`Player::drawCard`, `Player::splitHand` with a shoe of one card and
`Dealer::play` with a dealer below 17: none of them has a defined result. -/
theorem Deck.drawCard_no_empty_shoe_failure :
    emptyShoe.cards = [] ∧
      emptyShoe.drawChecked true = DrawResult.emptyShoe ∧
      emptyShoe.drawCard true = none ∧
      Player.new.drawCard emptyShoe 0 true = none ∧
      jackQueen.canSplit 0 = true ∧
      jackQueen.splitHand (Deck.mk [faceUp .FIVE]) 0 = none ∧
      lowDealer.getPoints 0 < 17 ∧
      Dealer.play 1 lowDealer emptyShoe = Run.undefined := by
  decide

/-- C15, amended: the code has no EmptyShoe failure and draws only from shoes
that hold cards.  On every non-empty shoe `Deck::drawCard` returns what the
spec's draw returns and leaves the shoe one card shorter; `Player::drawCard`
has a result on every non-empty shoe, `Player::splitHand` and the opening deal
on every shoe of at least 2 cards, and `Dealer::play` never runs into an
undefined draw when the dealer holds two cards and the shoe at least 3.  A
round of `playGame` that returns has taken at most 25 cards from the shoe, so
of the 312 cards of a constructed shoe at least 287 are left. -/
theorem draws_defined_with_cards :
    (∀ (deck : Deck) (reveal : Bool), deck.cards ≠ [] →
        ∃ (card : Card) (rest : Deck),
          deck.drawCard reveal = some (card, rest) ∧
          deck.drawChecked reveal = DrawResult.drawn card rest ∧
          rest.cards.length + 1 = deck.cards.length) ∧
    (∀ (p : Player) (deck : Deck) (handIndex : Int) (reveal : Bool), deck.cards ≠ [] →
        ∃ r : Player × Deck, p.drawCard deck handIndex reveal = some r) ∧
    (∀ (p : Player) (deck : Deck) (handIndex : Int), 2 ≤ deck.cards.length →
        ∃ r : Player × Deck, p.splitHand deck handIndex = some r) ∧
    (∀ deck : Deck, 2 ≤ deck.cards.length →
        ∃ r : Player × Deck, Dealer.drawInitialCards Dealer.new deck = some r) ∧
    (∀ (fuel : Nat) (dealer : Player) (deck : Deck) (c0 c1 : Card) (more : List Card)
        (rest : List (List Card)),
        dealer.hands = (c0 :: c1 :: more) :: rest → 3 ≤ deck.cards.length →
        Dealer.play fuel dealer deck ≠ Run.undefined) ∧
    (∀ (fuel : Nat) (deck : Deck) (input : List Char) (r : Round),
        playGame fuel deck input = Run.done r →
        deck.cards.length ≤ r.deck.cards.length + 25) ∧
    (∀ (rand : Nat → Nat) (deck : Deck) (fuel : Nat) (input : List Char) (r : Round),
        Deck.constructed rand deck → playGame fuel deck input = Run.done r →
        287 ≤ r.deck.cards.length) := by
  refine ⟨?_, ?_, ?_, ?_, ?_, ?_, ?_⟩
  · intro deck reveal hne
    have hd := Deck.drawCard_of_ne_nil deck reveal hne
    refine ⟨_, _, hd, ?_, Deck.drawCard_length deck reveal _ _ hd⟩
    unfold Deck.drawChecked
    rw [List.getLast?_eq_getLast _ hne]
  · intro p deck handIndex reveal hne
    exact Player.drawCard_defined p deck handIndex reveal hne
  · intro p deck handIndex hdeck
    exact Player.splitHand_defined_of_two p deck handIndex hdeck
  · intro deck hdeck
    obtain ⟨cards⟩ := deck
    simp only at hdeck
    have hne : cards ≠ [] := by
      intro h0
      rw [h0] at hdeck
      simp at hdeck
    have hne2 : cards.dropLast ≠ [] := by
      intro h0
      have := congrArg List.length h0
      simp only [List.length_dropLast, List.length_nil] at this
      omega
    have hsplit : cards = cards.dropLast.dropLast ++ [cards.dropLast.getLast hne2,
        cards.getLast hne] := by
      have h1 := (List.dropLast_append_getLast hne).symm
      have h2 := (List.dropLast_append_getLast hne2).symm
      calc cards = cards.dropLast ++ [cards.getLast hne] := h1
        _ = (cards.dropLast.dropLast ++ [cards.dropLast.getLast hne2])
              ++ [cards.getLast hne] := by rw [← h2]
        _ = _ := by simp
    rw [hsplit]
    exact ⟨_, Dealer.drawInitialCards_new _ _ _⟩
  · intro fuel dealer deck c0 c1 more rest hh hdeck
    have hrev : Dealer.revealSecond dealer
        = some (Player.mk ((c0 :: { c1 with revealed := true } :: more) :: rest)) := by
      unfold Dealer.revealSecond
      rw [hh]
    unfold Dealer.play
    rw [hrev]
    apply Dealer.playLoop_defined
    simp only [List.length_cons]
    omega
  · intro fuel deck input r h
    exact playGame_cards_drawn fuel deck input r h
  · intro rand deck fuel input r hdeck h
    have hlen : deck.cards.length = 312 := by
      unfold Deck.constructed at hdeck
      rw [hdeck.length_eq, Deck.fill_length]
    have := playGame_cards_drawn fuel deck input r h
    omega

theorem draws_defined_with_cards_witness :
    playGame 4 splitAcesShoe ['y', 'n', 'n']
      = Run.done
          { player := Player.mk [[⟨.ACE, 'S', true⟩, faceUp .KING], [⟨.ACE, 'H', true⟩, faceUp .FIVE]]
            dealer := Player.mk [[⟨.TEN, 'C', true⟩, ⟨.SIX, 'D', true⟩, faceUp .NINE]]
            deck := Deck.mk []
            input := ['n', 'n']
            log := [Event.splitPrompt 0, Event.blackjack, Event.wins 0, Event.wins 1] } ∧
      splitAcesShoe.cards.length ≤ (Deck.mk []).cards.length + 25 :=
  ⟨by decide,
    draws_defined_with_cards.2.2.2.2.2.1 4 splitAcesShoe ['y', 'n', 'n']
      { player := Player.mk [[⟨.ACE, 'S', true⟩, faceUp .KING], [⟨.ACE, 'H', true⟩, faceUp .FIVE]]
        dealer := Player.mk [[⟨.TEN, 'C', true⟩, ⟨.SIX, 'D', true⟩, faceUp .NINE]]
        deck := Deck.mk []
        input := ['n', 'n']
        log := [Event.splitPrompt 0, Event.blackjack, Event.wins 0, Event.wins 1] }
      (by decide)⟩

end Blackjack
